import Mathlib

set_option maxRecDepth 40000

/-!
Verification of the BiBip car service (`src/bibip_car_service.py`).

The service persists three entities (models, cars, sales) in flat text files.
Every record is serialized as `;`-separated fields, left-justified with spaces
to `LINE_LENGTH = 500` characters and terminated by `"\n"`; line number `n`
is addressed by seeking to byte offset `n * (LINE_LENGTH + 1)`.  Each entity
also has an index file of `key;line_number` lines kept sorted by key.

The embedding below models every file as its raw character sequence
(`List Char`), and the Python string operations (`strip`, `split(";")`,
`ljust`, `readline` after `seek`, `readlines`, in-place `r+` writes) as
functions on `List Char`.  Python `str` values are Lean `String`s.

Numeric and temporal payloads (`Decimal` prices/costs, `datetime` dates) are
modelled by their canonical string forms: the service only ever moves them
between attribute and file through `str  .. Decimal(..)` /
`strftime .. strptime`, which are mutually inverse on canonical day-precision
values, so the string form is a faithful observable.  Where an ordering on
prices is needed (`top_models_by_sales`), the numeric value of the decimal
string is computed by `decVal`.

Python `dict`s are modelled as insertion-ordered association lists with the
exact `dict` update semantics (`dInsert` overwrites in place, else appends).
Python `sorted` is modelled by the stable insertion sort `insSort` with the
not-greater-than relation, which matches CPython's stable ascending sort.

List indexing `xs[i]` is embedded as `List.getD xs i junk`; in Python an
out-of-range index raises `IndexError`.  All theorems below carry
well-formedness hypotheses under which every such access is in range, so the
two semantics agree on every state a theorem speaks about; the same holds for
the `int(..)` / `CarStatus(..)` parses that raise `ValueError` on malformed
text.
-/

/-- Python `str.strip` strips these whitespace characters (ASCII range). -/
def isPySpace (c : Char) : Bool :=
  c = ' ' || c = '\t' || c = '\n' || c = '\r' || c = '\x0b' || c = '\x0c'

/-- Python `line.strip()` on a character list. -/
def stripL (cs : List Char) : List Char :=
  ((cs.dropWhile isPySpace).reverse.dropWhile isPySpace).reverse

/-- Python `s.split(";")`: always returns at least one (possibly empty) field. -/
def splitSemi : List Char → List (List Char)
  | [] => [[]]
  | c :: cs =>
    match splitSemi cs with
    | [] => [[]]
    | f :: r => if c = ';' then [] :: f :: r else (c :: f) :: r

/-- Python `";".join(fields)`. -/
def joinSemi : List (List Char) → List Char
  | [] => []
  | [f] => f
  | f :: r => f ++ ';' :: joinSemi r

/-- Python `s.ljust(n)`: pad on the right with spaces up to length `n`.
If `s` is already at least `n` characters long it is returned unchanged. -/
def ljustPad (cs : List Char) (n : Nat) : List Char :=
  cs ++ List.replicate (n - cs.length) ' '

/-- Python `s.replace(",", ".")` (single-character replacement). -/
def replaceCommaDot (cs : List Char) : List Char :=
  cs.map (fun c => if c = ',' then '.' else c)

/-- Digit expansion of `n` in base 10, most significant first; the first
argument is recursion fuel (any bound on the digit count, e.g. `n` itself). -/
def natToCharsAux : Nat → Nat → List Char
  | 0, _ => []
  | _ + 1, 0 => []
  | fuel + 1, n => natToCharsAux fuel (n / 10) ++ [Char.ofNat (48 + n % 10)]

/-- Python `str(n)` for a natural number. -/
def natToChars (n : Nat) : List Char :=
  if n = 0 then ['0'] else natToCharsAux n n

/-- Python `int(s)` for a digit string (junk on text that would raise). -/
def parseNatChars (cs : List Char) : Nat :=
  cs.foldl (fun a c => 10 * a + (c.toNat - 48)) 0

/-- Python `str(i)` for an integer. -/
def intToChars (i : Int) : List Char :=
  if i < 0 then '-' :: natToChars i.natAbs else natToChars i.natAbs

/-- Python `int(s)` for an optionally signed digit string. -/
def parseIntChars : List Char → Int
  | '-' :: cs => -(parseNatChars cs : Int)
  | cs => (parseNatChars cs : Int)

/-- A file as the concatenation of newline-terminated lines. -/
def flattenL (ls : List (List Char)) : List Char :=
  (ls.map (fun l => l ++ ['\n'])).flatten

/-- Python `f.readlines()` / iteration over a file: split into lines, each
keeping its terminating newline (a last unterminated chunk is kept, too). -/
def pyReadlines : List Char → List (List Char)
  | [] => []
  | c :: cs =>
    if c = '\n' then ['\n'] :: pyReadlines cs
    else
      match pyReadlines cs with
      | [] => [[c]]
      | l :: ls => (c :: l) :: ls

/-- Python `f.seek(off); f.readline()`: the characters from byte `off` up to
and including the next newline (or to the end of file). -/
def readlineAt (cs : List Char) (off : Nat) : List Char :=
  let rest := cs.drop off
  let body := rest.takeWhile (fun c => c ≠ '\n')
  if body.length < rest.length then body ++ ['\n'] else body

/-- Python `f.seek(off); f.write(s)` on a file opened `r+`: splice `s` over
the bytes starting at `off`. -/
def splice (cs : List Char) (off : Nat) (s : List Char) : List Char :=
  cs.take off ++ s ++ cs.drop (off + s.length)

/-! ## Python dictionaries as insertion-ordered association lists -/

/-- Python `k in d`. -/
def dMem {κ β : Type} [DecidableEq κ] (d : List (κ × β)) (k : κ) : Bool :=
  d.any (fun p => p.1 = k)

/-- Python `d.get(k)` / `d[k]` lookup. -/
def dGet? {κ β : Type} [DecidableEq κ] (d : List (κ × β)) (k : κ) : Option β :=
  (d.find? (fun p => p.1 = k)).map (fun p => p.2)

/-- Python `d.get(k, dflt)`. -/
def dGetD {κ β : Type} [DecidableEq κ] (d : List (κ × β)) (k : κ) (dflt : β) : β :=
  (dGet? d k).getD dflt

/-- Python `d[k] = v`: overwrite in place if present, else append. -/
def dInsert {κ β : Type} [DecidableEq κ] (d : List (κ × β)) (k : κ) (v : β) :
    List (κ × β) :=
  if dMem d k then d.map (fun p => if p.1 = k then (k, v) else p) else d ++ [(k, v)]

/-- Python `del d[k]`. -/
def dErase {κ β : Type} [DecidableEq κ] (d : List (κ × β)) (k : κ) : List (κ × β) :=
  d.eraseP (fun p => decide (p.1 = k))

/-- Python string `<`: lexicographic comparison by code point. -/
def charListLtB : List Char → List Char → Bool
  | _, [] => false
  | [], _ :: _ => true
  | a :: as, b :: bs => decide (a < b) || (decide (a = b) && charListLtB as bs)

/-- Python tuple comparison `(k1, n1) < (k2, n2)` for index items. -/
def pairLtB (a b : String × Nat) : Bool :=
  charListLtB a.1.data b.1.data || (decide (a.1 = b.1) && decide (a.2 < b.2))

/-- The `le` relation of Python `sorted(index.items())` (stable ascending). -/
def pairLeB (a b : String × Nat) : Bool :=
  !(pairLtB b a)

/-- Insert `x` into `l` in front of the first element it is `le`-below-or-
equal-to (the insertion step of a stable ascending sort). -/
def insLe {α : Type} (le : α → α → Bool) (x : α) : List α → List α
  | [] => [x]
  | y :: ys => if le x y then x :: y :: ys else y :: insLe le x ys

/-- Stable ascending insertion sort.  Python `sorted` is a stable ascending
sort, and a stable sort w.r.t. a total preorder is unique, so this function
computes exactly what `sorted` returns for the relations used here. -/
def insSort {α : Type} (le : α → α → Bool) : List α → List α
  | [] => []
  | x :: xs => insLe le x (insSort le xs)

/-! ## The index files (`_load_index` / `_save_index`) -/

/-- Embeds `CarService.LINE_LENGTH`. -/
def LINE_LENGTH : Nat := 500

/-- Embeds `CarService._save_index`: write `key;line_number` lines sorted ascending
(`sorted(index.items())`). -/
def save_index (index : List (String × Nat)) : List Char :=
  flattenL ((insSort pairLeB index).map (fun p => p.1.data ++ ';' :: natToChars p.2))

/-- One iteration of the `_load_index` loop: parse a line containing a `;`
as `key;line_number` and store it.  (A line whose `split(";")` does not have
exactly two parts makes Python raise `ValueError`; such lines never occur in
files written by `save_index`, and the embedding skips them.) -/
def loadLine (d : List (String × Nat)) (line : List Char) : List (String × Nat) :=
  if ';' ∈ line then
    match splitSemi (stripL line) with
    | [k, v] => dInsert d (⟨k⟩ : String) (parseNatChars v)
    | _ => d
  else d

/-- Embeds `CarService._load_index`. -/
def load_index (cs : List Char) : List (String × Nat) :=
  (pyReadlines cs).foldl loadLine []

/-! ## Domain records

Modelled from the spec: the plain value records (`models.py` is not part of
the delivered sources).  Spec section 3 gives their exact field lists:
`Model (id, name, brand)`, `Car (vin, model, price, date_start, status)`,
`Sale (sales_number, car_vin, cost, sales_date)`, the derived `CarFullInfo`
and `ModelSaleStats`, and `CarStatus = enum (available, sold)`.  Prices,
costs and dates are carried as their canonical string forms (see the header
comment). -/

/-- Modelled from the spec: `CarStatus` enum with values
`available` and `sold`. -/
inductive CarStatus : Type
  | available
  | sold
deriving DecidableEq

/-- The `.value` string of a `CarStatus` member. -/
def CarStatus.value : CarStatus → String
  | .available => "available"
  | .sold => "sold"

/-- Python `CarStatus(s)`: partial inverse of `.value`
(raises `ValueError` on any other string). -/
def parseStatus (s : String) : Option CarStatus :=
  if s = "available" then some CarStatus.available
  else if s = "sold" then some CarStatus.sold
  else none

/-- Modelled from the spec: the `Model` record. -/
structure Model : Type where
  id : Int
  name : String
  brand : String
deriving DecidableEq

/-- Modelled from the spec: the `Car` record (`model` is the model id). -/
structure Car : Type where
  vin : String
  model : Int
  price : String
  date_start : String
  status : CarStatus
deriving DecidableEq

/-- Modelled from the spec: the `Sale` record. -/
structure Sale : Type where
  sales_number : String
  car_vin : String
  cost : String
  sales_date : String
deriving DecidableEq

/-- Modelled from the spec: the derived `CarFullInfo` view. -/
structure CarFullInfo : Type where
  vin : String
  car_model_name : String
  car_model_brand : String
  price : String
  date_start : String
  status : CarStatus
  sales_date : Option String
  sales_cost : Option String
deriving DecidableEq

/-- Modelled from the spec: the derived `ModelSaleStats` record. -/
structure ModelSaleStats : Type where
  car_model_name : String
  brand : String
  sales_number : Nat
deriving DecidableEq

/-- The six files managed by `CarService`, as raw character contents. -/
structure DB : Type where
  models : List Char
  models_index : List Char
  cars : List Char
  cars_index : List Char
  sales : List Char
  sales_index : List Char
deriving DecidableEq

/-- The freshly bootstrapped store: six empty files. -/
def emptyDB : DB := ⟨[], [], [], [], [], []⟩

/-- The spec's abstract error kinds (the Python code raises `ValueError`
with a distinguishing message in each of these situations). -/
inductive Err : Type
  | notFound
  | corruption
  | conflict
deriving DecidableEq

/-! ## CarService operations -/

/-- Embeds `CarService.add_model`. -/
def add_model (db : DB) (model : Model) : DB × Model :=
  let model_index := load_index db.models_index
  if dMem model_index (⟨intToChars model.id⟩ : String) then (db, model)
  else
    let line_number := model_index.length
    let model_str :=
      ljustPad (joinSemi [intToChars model.id, model.name.data, model.brand.data])
        LINE_LENGTH
    ({ db with
        models := db.models ++ model_str ++ ['\n'],
        models_index :=
          save_index (dInsert model_index (⟨intToChars model.id⟩ : String) line_number) },
      model)

/-- Embeds `CarService.add_car`. -/
def add_car (db : DB) (car : Car) : DB × Car :=
  let car_index := load_index db.cars_index
  if dMem car_index car.vin then (db, car)
  else
    let line_number := car_index.length
    let price_str := replaceCommaDot car.price.data
    let car_str :=
      ljustPad
        (joinSemi
          [car.vin.data, intToChars car.model, price_str, car.date_start.data,
            car.status.value.data])
        LINE_LENGTH
    ({ db with
        cars := db.cars ++ car_str ++ ['\n'],
        cars_index := save_index (dInsert car_index car.vin line_number) },
      car)

/-- Embeds `CarService.sell_car`.  The sale is appended and indexed before the car
is looked up, so the first two mutations survive a subsequent failure. -/
def sell_car (db : DB) (sale : Sale) : DB × Option Err :=
  let sales_index := load_index db.sales_index
  let line_number := sales_index.length
  let sale_str :=
    ljustPad
      (joinSemi
        [sale.sales_number.data, sale.car_vin.data, sale.cost.data,
          sale.sales_date.data])
      LINE_LENGTH
  let db1 : DB :=
    { db with
        sales := db.sales ++ sale_str ++ ['\n'],
        sales_index := save_index (dInsert sales_index sale.sales_number line_number) }
  let car_index := load_index db1.cars_index
  match dGet? car_index sale.car_vin with
  | none => (db1, some Err.notFound)
  | some car_line_number =>
    let car_line := readlineAt db1.cars (car_line_number * (LINE_LENGTH + 1))
    let car_data := splitSemi (stripL car_line)
    if car_data.length < 5 ∨ car_data.getD 0 [] = [] then (db1, some Err.corruption)
    else
      let new_car_str :=
        ljustPad (joinSemi (car_data.set 4 CarStatus.sold.value.data)) LINE_LENGTH
      ({ db1 with
          cars :=
            splice db1.cars (car_line_number * (LINE_LENGTH + 1)) (new_car_str ++ ['\n']) },
        none)

/-- The linear scan of the sales file in `get_car_info`: first non-blank
line whose second field is `vin`, returning `(cost, date)` fields. -/
def find_first_sale : List (List Char) → List Char → Option (List Char × List Char)
  | [], _ => none
  | line :: rest, vin =>
    if stripL line = [] then find_first_sale rest vin
    else
      let fs := splitSemi (stripL line)
      if fs.getD 1 [] = vin then some (fs.getD 2 [], fs.getD 3 [])
      else find_first_sale rest vin

/-- Embeds `CarService.get_car_info`. -/
def get_car_info (db : DB) (vin : String) : Option CarFullInfo :=
  let car_index := load_index db.cars_index
  match dGet? car_index vin with
  | none => none
  | some line_number =>
    let line := readlineAt db.cars (line_number * (LINE_LENGTH + 1))
    let data := splitSemi (stripL line)
    if data.length < 5 then none
    else
      let model_id := parseIntChars (data.getD 1 [])
      match parseStatus (⟨data.getD 4 []⟩ : String) with
      | none => none
      | some status =>
        let model_index := load_index db.models_index
        match dGet? model_index (⟨intToChars model_id⟩ : String) with
        | none => none
        | some model_line_number =>
          let model_line := readlineAt db.models (model_line_number * (LINE_LENGTH + 1))
          let model_data := splitSemi (stripL model_line)
          if model_data.length < 3 then none
          else
            let sold_info :=
              if status = CarStatus.sold then find_first_sale (pyReadlines db.sales) vin.data
              else none
            some
              { vin := (⟨data.getD 0 []⟩ : String),
                car_model_name := (⟨model_data.getD 1 []⟩ : String),
                car_model_brand := (⟨model_data.getD 2 []⟩ : String),
                price := (⟨data.getD 2 []⟩ : String),
                date_start := (⟨data.getD 3 []⟩ : String),
                status := status,
                sales_date := sold_info.map (fun p => (⟨p.2⟩ : String)),
                sales_cost := sold_info.map (fun p => (⟨p.1⟩ : String)) }

/-- Embeds `CarService.update_vin`. -/
def update_vin (db : DB) (old_vin new_vin : String) : DB × Option Err :=
  let car_index := load_index db.cars_index
  match dGet? car_index old_vin with
  | none => (db, none)
  | some line_number =>
    if dMem car_index new_vin then (db, some Err.conflict)
    else
      let line := readlineAt db.cars (line_number * (LINE_LENGTH + 1))
      if line = [] then (db, some Err.notFound)
      else
        let fields := splitSemi (stripL line)
        let new_line := ljustPad (joinSemi (fields.set 0 new_vin.data)) LINE_LENGTH
        ({ db with
            cars := splice db.cars (line_number * (LINE_LENGTH + 1)) (new_line ++ ['\n']),
            cars_index :=
              save_index (dInsert (dErase car_index old_vin) new_vin line_number) },
          none)

/-- One iteration of the index-rebuild loop of `revert_sale`
(`for i, line in enumerate(sales_lines)`): skip blank lines, otherwise map
the line's first field to its new position. -/
def rebuildStep (d : List (String × Nat)) (p : Nat × List Char) :
    List (String × Nat) :=
  if stripL p.2 = [] then d
  else dInsert d (⟨(splitSemi (stripL p.2)).getD 0 []⟩ : String) p.1

/-- The rebuilt sales index of `revert_sale`, computed from the surviving
sale lines (with their terminators) after the deletion. -/
def rebuild_sales_index (sales_lines : List (List Char)) : List (String × Nat) :=
  sales_lines.enum.foldl rebuildStep []

/-- Embeds `CarService.revert_sale`. -/
def revert_sale (db : DB) (sales_number : String) : DB × Option Err :=
  let sales_index := load_index db.sales_index
  match dGet? sales_index sales_number with
  | none => (db, some Err.notFound)
  | some sale_line_number =>
    let sales_lines := pyReadlines db.sales
    let sale_line := sales_lines.getD sale_line_number []
    let sale_fields := splitSemi (stripL sale_line)
    let car_vin : String := ⟨sale_fields.getD 1 []⟩
    let sales_lines := sales_lines.eraseIdx sale_line_number
    let new_sales_index := rebuild_sales_index sales_lines
    let db1 : DB :=
      { db with
          sales := sales_lines.flatten,
          sales_index := save_index new_sales_index }
    let car_index := load_index db1.cars_index
    match dGet? car_index car_vin with
    | none => (db1, some Err.notFound)
    | some car_line_number =>
      let line := readlineAt db1.cars (car_line_number * (LINE_LENGTH + 1))
      let fields := splitSemi (stripL line)
      if fields.length < 5 then (db1, some Err.corruption)
      else
        let new_car_line :=
          ljustPad (joinSemi (fields.set 4 CarStatus.available.value.data)) LINE_LENGTH
        ({ db1 with
            cars :=
              splice db1.cars (car_line_number * (LINE_LENGTH + 1)) (new_car_line ++ ['\n']) },
          none)

/-- Numeric value of a canonical decimal string (the order on Python
`Decimal`s is the order of these values). -/
def decVal (cs : List Char) : ℚ :=
  match cs with
  | '-' :: rest =>
    let ip := rest.takeWhile (fun c => c ≠ '.')
    let fp := (rest.dropWhile (fun c => c ≠ '.')).drop 1
    (0 : ℚ) - ((parseNatChars ip : ℚ) + (parseNatChars fp : ℚ) / (10 : ℚ) ^ fp.length)
  | _ =>
    let ip := cs.takeWhile (fun c => c ≠ '.')
    let fp := (cs.dropWhile (fun c => c ≠ '.')).drop 1
    (parseNatChars ip : ℚ) + (parseNatChars fp : ℚ) / (10 : ℚ) ^ fp.length

/-- The Python sort key comparison of `top_models_by_sales`:
`(sales_count, max_price.get(model_id, Decimal("0")))` tuples,
compared lexicographically. -/
def topKeyLt (max_price : List (Int × List Char)) (a b : Int × Nat) : Bool :=
  decide (a.2 < b.2) ||
    (decide (a.2 = b.2) &&
      decide (decVal (dGetD max_price a.1 ['0']) < decVal (dGetD max_price b.1 ['0'])))

/-- The `vin -> (model_id, price)` mapping built by the car-file scan of
`top_models_by_sales`. -/
def carMappingOf (db : DB) : List (String × (Int × List Char)) :=
  (pyReadlines db.cars).foldl
    (fun m line =>
      if stripL line = [] then m
      else
        let fields := splitSemi (stripL line)
        if fields.length < 5 then m
        else
          dInsert m (⟨fields.getD 0 []⟩ : String)
            (parseIntChars (fields.getD 1 []), fields.getD 2 []))
    []

/-- The `(sales_count, max_price)` dictionaries built by the sales-file scan
of `top_models_by_sales`. -/
def salesStatsOf (db : DB) : List (Int × Nat) × List (Int × List Char) :=
  (pyReadlines db.sales).foldl
    (fun p line =>
      if stripL line = [] then p
      else
        let fields := splitSemi (stripL line)
        match dGet? (carMappingOf db) (⟨fields.getD 1 []⟩ : String) with
        | none => p
        | some mp =>
          let sales_count := dInsert p.1 mp.1 (dGetD p.1 mp.1 0 + 1)
          let max_price :=
            if dMem p.2 mp.1 = false then dInsert p.2 mp.1 mp.2
            else if decVal (dGetD p.2 mp.1 []) < decVal mp.2 then dInsert p.2 mp.1 mp.2
            else p.2
          (sales_count, max_price))
    ([], [])

/-- The `sorted(sales_count.items(), key=(count, max_price), reverse=True)`
list of `top_models_by_sales` (stable descending sort). -/
def sortedModelsOf (db : DB) : List (Int × Nat) :=
  insSort (fun a b => !topKeyLt (salesStatsOf db).2 a b) (salesStatsOf db).1

/-- Embeds `CarService.top_models_by_sales`. -/
def top_models_by_sales (db : DB) : List ModelSaleStats :=
  let top_three := (sortedModelsOf db).take 3
  let model_index := load_index db.models_index
  top_three.filterMap
    (fun item =>
      match dGet? model_index (⟨intToChars item.1⟩ : String) with
      | none => none
      | some line_num =>
        let model_line := readlineAt db.models (line_num * (LINE_LENGTH + 1))
        let fields := splitSemi (stripL model_line)
        if fields.length < 3 then none
        else
          some
            { car_model_name := (⟨fields.getD 1 []⟩ : String),
              brand := (⟨fields.getD 2 []⟩ : String),
              sales_number := item.2 })

/-! ## Supporting lemmas: field splitting and joining -/

theorem splitSemi_ne_nil (cs : List Char) : splitSemi cs ≠ [] := by
  induction cs with
  | nil => simp [splitSemi]
  | cons c cs ih =>
    simp only [splitSemi]
    rcases h : splitSemi cs with _ | ⟨f, r⟩
    · exact absurd h ih
    · by_cases hc : c = ';' <;> simp [hc]

theorem splitSemi_append (f cs : List Char) (hf : ';' ∉ f) (g : List Char)
    (gs : List (List Char)) (h : splitSemi cs = g :: gs) :
    splitSemi (f ++ cs) = (f ++ g) :: gs := by
  induction f with
  | nil => simpa using h
  | cons c f ih =>
    have hc : c ≠ ';' := by
      intro e
      exact hf (by simp [e])
    have hf' : ';' ∉ f := fun m => hf (List.mem_cons_of_mem _ m)
    rw [List.cons_append]
    simp only [splitSemi, ih hf']
    simp [hc]

theorem splitSemi_of_not_mem (f : List Char) (hf : ';' ∉ f) : splitSemi f = [f] := by
  have h := splitSemi_append f [] hf [] [] (by simp [splitSemi])
  simpa using h

theorem splitSemi_joinSemi (fss : List (List Char)) (hne : fss ≠ [])
    (h : ∀ fs ∈ fss, ';' ∉ fs) : splitSemi (joinSemi fss) = fss := by
  induction fss with
  | nil => exact absurd rfl hne
  | cons f rest ih =>
    rcases rest with _ | ⟨f₂, rest'⟩
    · exact splitSemi_of_not_mem f (h f (by simp))
    · have ihr : splitSemi (joinSemi (f₂ :: rest')) = f₂ :: rest' :=
        ih (by simp) (fun x hx => h x (by simp [hx]))
      have hsplit : splitSemi (';' :: joinSemi (f₂ :: rest')) = [] :: f₂ :: rest' := by
        simp [splitSemi, ihr]
      have := splitSemi_append f (';' :: joinSemi (f₂ :: rest')) (h f (by simp)) _ _ hsplit
      simpa [joinSemi] using this

/-! ## Supporting lemmas: `strip` -/

theorem dropWhile_append_all {p : Char → Bool} (l₁ l₂ : List Char)
    (h : ∀ c ∈ l₁, p c = true) : (l₁ ++ l₂).dropWhile p = l₂.dropWhile p := by
  induction l₁ with
  | nil => rfl
  | cons c l ih =>
    rw [List.cons_append, List.dropWhile_cons, if_pos (h c (by simp))]
    exact ih (fun x hx => h x (by simp [hx]))

theorem head_false_of_dropWhile_self {p : Char → Bool} {c : Char} {cs : List Char}
    (h : List.dropWhile p (c :: cs) = c :: cs) : p c = false := by
  by_cases hc : p c = true
  · rw [List.dropWhile_cons, if_pos hc] at h
    have hle := List.Sublist.length_le
      (List.dropWhile_sublist p : (cs.dropWhile p).Sublist cs)
    rw [h] at hle
    simp at hle
  · simpa using hc

theorem stripL_pad (cs suf : List Char) (hsuf : ∀ c ∈ suf, isPySpace c = true)
    (h1 : cs.dropWhile isPySpace = cs)
    (h2 : cs.reverse.dropWhile isPySpace = cs.reverse) :
    stripL (cs ++ suf) = cs := by
  unfold stripL
  rcases cs with _ | ⟨c, cs'⟩
  · have hnil : suf.dropWhile isPySpace = [] := by
      rw [List.dropWhile_eq_nil_iff]
      exact hsuf
    simp [hnil]
  · have hc : isPySpace c = false := head_false_of_dropWhile_self h1
    have e1 : ((c :: cs') ++ suf).dropWhile isPySpace = (c :: cs') ++ suf := by
      rw [List.cons_append, List.dropWhile_cons, if_neg (by simp [hc])]
    rw [e1, List.reverse_append,
      dropWhile_append_all _ _ (fun x hx => hsuf x (List.mem_reverse.mp hx)), h2,
      List.reverse_reverse]

/-! ## Supporting lemmas: line geometry -/

theorem flattenL_cons (l : List Char) (ls : List (List Char)) :
    flattenL (l :: ls) = l ++ '\n' :: flattenL ls := by
  simp [flattenL]

theorem flattenL_append (a b : List (List Char)) :
    flattenL (a ++ b) = flattenL a ++ flattenL b := by
  simp [flattenL]

theorem pyReadlines_flattenL (ls : List (List Char)) (h : ∀ l ∈ ls, '\n' ∉ l) :
    pyReadlines (flattenL ls) = ls.map (fun l => l ++ ['\n']) := by
  induction ls with
  | nil => rfl
  | cons l rest ih =>
    rw [flattenL_cons]
    have hl : '\n' ∉ l := h l (by simp)
    have ihr := ih (fun x hx => h x (by simp [hx]))
    clear h ih
    induction l with
    | nil => simp [pyReadlines, ihr]
    | cons c l ihl =>
      have hc : c ≠ '\n' := by
        intro e
        exact hl (by simp [e])
      have hl' : '\n' ∉ l := fun m => hl (by simp [m])
      rw [List.cons_append]
      simp only [pyReadlines, if_neg hc]
      rw [ihl hl']
      simp

theorem readlineAt_congr (cs₁ cs₂ : List Char) (o₁ o₂ : Nat)
    (h : cs₁.drop o₁ = cs₂.drop o₂) : readlineAt cs₁ o₁ = readlineAt cs₂ o₂ := by
  unfold readlineAt
  rw [h]

theorem takeWhile_append_newline (l r : List Char) (hl : '\n' ∉ l) :
    (l ++ '\n' :: r).takeWhile (fun c => c ≠ '\n') = l := by
  induction l with
  | nil => simp [List.takeWhile]
  | cons c t ih =>
    have hc : c ≠ '\n' := by
      intro e
      exact hl (by simp [e])
    have ht : '\n' ∉ t := fun m => hl (by simp [m])
    rw [List.cons_append, List.takeWhile_cons, if_pos (by simp [hc]), ih ht]

theorem readlineAt_flattenL (ls : List (List Char)) (n : Nat)
    (h : ∀ l ∈ ls, l.length = LINE_LENGTH ∧ '\n' ∉ l) (hn : n < ls.length) :
    readlineAt (flattenL ls) (n * (LINE_LENGTH + 1)) = ls.getD n [] ++ ['\n'] := by
  induction ls generalizing n with
  | nil => simp at hn
  | cons l rest ih =>
    rcases n with _ | n
    · rw [flattenL_cons]
      unfold readlineAt
      simp only [Nat.zero_mul, List.drop_zero]
      rw [takeWhile_append_newline _ _ (h l (by simp)).2]
      have hlt : l.length < (l ++ '\n' :: flattenL rest).length := by
        simp
      rw [if_pos hlt]
      simp
    · have hdrop : (flattenL (l :: rest)).drop ((n + 1) * (LINE_LENGTH + 1)) =
          (flattenL rest).drop (n * (LINE_LENGTH + 1)) := by
        rw [flattenL_cons]
        have hlen : (l ++ ['\n']).length = LINE_LENGTH + 1 := by
          simp [(h l (by simp)).1]
        have e : l ++ '\n' :: flattenL rest = (l ++ ['\n']) ++ flattenL rest := by
          simp
        rw [e, show (n + 1) * (LINE_LENGTH + 1) =
          (l ++ ['\n']).length + n * (LINE_LENGTH + 1) by rw [hlen]; ring,
          List.drop_append]
      rw [readlineAt_congr _ _ _ _ hdrop]
      have hres := ih n (fun x hx => h x (by simp [hx])) (by simpa using hn)
      simpa using hres

theorem splice_flattenL (ls : List (List Char)) (n : Nat) (newl : List Char)
    (h : ∀ l ∈ ls, l.length = LINE_LENGTH) (hn : n < ls.length)
    (hw : newl.length = LINE_LENGTH) :
    splice (flattenL ls) (n * (LINE_LENGTH + 1)) (newl ++ ['\n']) =
      flattenL (ls.set n newl) := by
  induction ls generalizing n with
  | nil => simp at hn
  | cons l rest ih =>
    have hl : (l ++ ['\n']).length = LINE_LENGTH + 1 := by
      simp [h l (by simp)]
    have hnewl : (newl ++ ['\n']).length = LINE_LENGTH + 1 := by
      simp [hw]
    have e : flattenL (l :: rest) = (l ++ ['\n']) ++ flattenL rest := by
      rw [flattenL_cons]
      simp
    rcases n with _ | n
    · unfold splice
      rw [e]
      simp only [Nat.zero_mul, List.take_zero, List.nil_append, Nat.zero_add]
      rw [show (newl ++ ['\n']).length = (l ++ ['\n']).length + 0 by omega,
        List.drop_append]
      rw [List.set_cons_zero, flattenL_cons]
      simp
    · unfold splice
      rw [e]
      rw [show (n + 1) * (LINE_LENGTH + 1) =
        (l ++ ['\n']).length + n * (LINE_LENGTH + 1) by rw [hl]; ring]
      rw [List.take_append]
      rw [show (l ++ ['\n']).length + n * (LINE_LENGTH + 1) + (newl ++ ['\n']).length =
        (l ++ ['\n']).length + (n * (LINE_LENGTH + 1) + (newl ++ ['\n']).length) by ring]
      rw [List.drop_append]
      have ihr := ih n (fun x hx => h x (by simp [hx])) (by simpa using hn)
      rw [List.set_cons_succ, flattenL_cons, ← ihr]
      unfold splice
      simp

theorem ljustPad_length (cs : List Char) (n : Nat) (h : cs.length ≤ n) :
    (ljustPad cs n).length = n := by
  simp [ljustPad]
  omega

theorem not_mem_ljustPad (cs : List Char) (n : Nat) (c : Char) (hc : c ∉ cs)
    (hs : c ≠ ' ') : c ∉ ljustPad cs n := by
  intro hmem
  rcases List.mem_append.mp hmem with h | h
  · exact hc h
  · exact hs (List.eq_of_mem_replicate h)

/-! ## Supporting lemmas: decimal digits of line numbers -/

theorem digitChar_facts (d : Nat) (hd : d < 10) :
    (Char.ofNat (48 + d)).toNat = 48 + d ∧ Char.ofNat (48 + d) ≠ ';' ∧
      Char.ofNat (48 + d) ≠ '\n' ∧ Char.ofNat (48 + d) ≠ '\r' ∧
      Char.ofNat (48 + d) ≠ '-' ∧ isPySpace (Char.ofNat (48 + d)) = false := by
  interval_cases d <;> exact ⟨by decide, by decide, by decide, by decide, by decide, by decide⟩

theorem natToCharsAux_mem (fuel n : Nat) :
    ∀ c ∈ natToCharsAux fuel n, ∃ d, d < 10 ∧ c = Char.ofNat (48 + d) := by
  induction fuel generalizing n with
  | zero => simp [natToCharsAux]
  | succ fuel ih =>
    rcases n with _ | m
    · simp [natToCharsAux]
    · intro c hc
      rw [show natToCharsAux (fuel + 1) (m + 1) =
        natToCharsAux fuel ((m + 1) / 10) ++ [Char.ofNat (48 + (m + 1) % 10)] from rfl] at hc
      rcases List.mem_append.mp hc with h | h
      · exact ih _ c h
      · exact ⟨(m + 1) % 10, Nat.mod_lt _ (by norm_num), by simpa using h⟩

theorem natToChars_mem (n : Nat) :
    ∀ c ∈ natToChars n, ∃ d, d < 10 ∧ c = Char.ofNat (48 + d) := by
  unfold natToChars
  by_cases h : n = 0
  · rw [if_pos h]
    intro c hc
    exact ⟨0, by norm_num, by simpa using hc⟩
  · rw [if_neg h]
    exact natToCharsAux_mem n n

theorem natToChars_chars (n : Nat) :
    ∀ c ∈ natToChars n, c ≠ ';' ∧ c ≠ '\n' ∧ c ≠ '\r' ∧ c ≠ '-' ∧
      isPySpace c = false := by
  intro c hc
  obtain ⟨d, hd, rfl⟩ := natToChars_mem n c hc
  obtain ⟨-, h1, h2, h3, h4, h5⟩ := digitChar_facts d hd
  exact ⟨h1, h2, h3, h4, h5⟩

theorem natToChars_ne_nil (n : Nat) : natToChars n ≠ [] := by
  unfold natToChars
  by_cases h : n = 0
  · simp [h]
  · rw [if_neg h]
    rcases n with _ | m
    · exact absurd rfl h
    · rw [show natToCharsAux (m + 1) (m + 1) =
        natToCharsAux m ((m + 1) / 10) ++ [Char.ofNat (48 + (m + 1) % 10)] from rfl]
      simp

theorem parseNatChars_append (xs : List Char) (c : Char) :
    parseNatChars (xs ++ [c]) = 10 * parseNatChars xs + (c.toNat - 48) := by
  simp [parseNatChars, List.foldl_append]

theorem parseNatChars_natToCharsAux (fuel n : Nat) (h : n ≤ fuel) :
    parseNatChars (natToCharsAux fuel n) = n := by
  induction fuel generalizing n with
  | zero =>
    have : n = 0 := Nat.le_zero.mp h
    simp [this, natToCharsAux, parseNatChars]
  | succ fuel ih =>
    rcases n with _ | m
    · simp [natToCharsAux, parseNatChars]
    · rw [show natToCharsAux (fuel + 1) (m + 1) =
        natToCharsAux fuel ((m + 1) / 10) ++ [Char.ofNat (48 + (m + 1) % 10)] from rfl]
      rw [parseNatChars_append]
      rw [ih _ (by
        have := Nat.div_lt_self (Nat.succ_pos m) (by norm_num : 1 < 10)
        omega)]
      rw [(digitChar_facts ((m + 1) % 10) (Nat.mod_lt _ (by norm_num))).1]
      omega

theorem parseNatChars_natToChars (n : Nat) : parseNatChars (natToChars n) = n := by
  unfold natToChars
  by_cases h : n = 0
  · rw [if_pos h, h]
    decide
  · rw [if_neg h]
    exact parseNatChars_natToCharsAux n n (Nat.le_refl n)

theorem parseIntChars_cons_ne (c : Char) (rest : List Char) (hc : c ≠ '-') :
    parseIntChars (c :: rest) = (parseNatChars (c :: rest) : Int) := by
  unfold parseIntChars
  split
  · rename_i heq
    injection heq with h1 h2
    exact absurd h1 hc
  · rfl

theorem parseIntChars_intToChars (i : Int) : parseIntChars (intToChars i) = i := by
  unfold intToChars
  by_cases h : i < 0
  · rw [if_pos h]
    show -(parseNatChars (natToChars i.natAbs) : Int) = i
    rw [parseNatChars_natToChars]
    omega
  · rw [if_neg h]
    rcases hnc : natToChars i.natAbs with _ | ⟨c, rest⟩
    · exact absurd hnc (natToChars_ne_nil _)
    · have hc : c ≠ '-' := by
        have := natToChars_chars i.natAbs c (by rw [hnc]; simp)
        exact this.2.2.2.1
      rw [parseIntChars_cons_ne c rest hc, ← hnc, parseNatChars_natToChars]
      omega

/-! ## Supporting lemmas: the stable sort -/

theorem insLe_perm {α : Type} (le : α → α → Bool) (x : α) (l : List α) :
    (insLe le x l).Perm (x :: l) := by
  induction l with
  | nil => exact List.Perm.refl _
  | cons y ys ih =>
    unfold insLe
    by_cases h : le x y
    · rw [if_pos h]
    · rw [if_neg h]
      exact (List.Perm.cons y ih).trans (List.Perm.swap x y ys)

theorem insSort_perm {α : Type} (le : α → α → Bool) (l : List α) :
    (insSort le l).Perm l := by
  induction l with
  | nil => exact List.Perm.refl _
  | cons x xs ih =>
    exact (insLe_perm le x (insSort le xs)).trans (List.Perm.cons x ih)

theorem mem_insSort {α : Type} (le : α → α → Bool) (l : List α) (x : α) :
    x ∈ insSort le l ↔ x ∈ l :=
  (insSort_perm le l).mem_iff

theorem length_insSort {α : Type} (le : α → α → Bool) (l : List α) :
    (insSort le l).length = l.length :=
  (insSort_perm le l).length_eq

theorem pairwise_insLe {α : Type} {le : α → α → Bool}
    (htot : ∀ a b, le a b || le b a) (htr : ∀ a b c, le a b → le b c → le a c)
    (x : α) (l : List α) (hl : l.Pairwise (fun a b => le a b = true)) :
    (insLe le x l).Pairwise (fun a b => le a b = true) := by
  induction l with
  | nil => simp [insLe]
  | cons y ys ih =>
    rw [List.pairwise_cons] at hl
    obtain ⟨hy, hys⟩ := hl
    unfold insLe
    by_cases h : le x y = true
    · rw [if_pos h]
      refine List.Pairwise.cons ?_ (List.Pairwise.cons hy hys)
      intro b hb
      rcases List.mem_cons.mp hb with rfl | hb
      · exact h
      · exact htr x y b h (hy b hb)
    · rw [if_neg h]
      refine List.Pairwise.cons ?_ (ih hys)
      intro b hb
      rcases List.mem_cons.mp ((insLe_perm le x ys).mem_iff.mp hb) with rfl | h1
      · rcases Bool.or_eq_true_iff.mp (htot b y) with h2 | h2
        · exact absurd h2 h
        · exact h2
      · exact hy b h1

theorem pairwise_insSort {α : Type} {le : α → α → Bool}
    (htot : ∀ a b, le a b || le b a) (htr : ∀ a b c, le a b → le b c → le a c)
    (l : List α) : (insSort le l).Pairwise (fun a b => le a b = true) := by
  induction l with
  | nil => simp [insSort]
  | cons x xs ih => exact pairwise_insLe htot htr x (insSort le xs) ih

/-! ## Supporting lemmas: dictionaries -/

/-- Pairwise-distinct keys. -/
def NodupKeys {κ β : Type} (d : List (κ × β)) : Prop :=
  d.Pairwise (fun p q => p.1 ≠ q.1)

theorem dMem_eq_false_iff {κ β : Type} [DecidableEq κ] (d : List (κ × β)) (k : κ) :
    dMem d k = false ↔ ∀ p ∈ d, p.1 ≠ k := by
  simp [dMem]

theorem dMem_eq_true_iff {κ β : Type} [DecidableEq κ] (d : List (κ × β)) (k : κ) :
    dMem d k = true ↔ ∃ p ∈ d, p.1 = k := by
  simp [dMem]

theorem dGet?_eq_none_iff {κ β : Type} [DecidableEq κ] (d : List (κ × β)) (k : κ) :
    dGet? d k = none ↔ ∀ p ∈ d, p.1 ≠ k := by
  simp [dGet?, List.find?_eq_none]

theorem dGet?_eq_some_of_mem {κ β : Type} [DecidableEq κ] {d : List (κ × β)}
    {k : κ} {v : β} (hnd : NodupKeys d) (hm : (k, v) ∈ d) : dGet? d k = some v := by
  induction d with
  | nil => simp at hm
  | cons p rest ih =>
    rw [NodupKeys, List.pairwise_cons] at hnd
    rcases List.mem_cons.mp hm with rfl | hm'
    · simp [dGet?, List.find?_cons_of_pos]
    · have hne : p.1 ≠ k := by
        have := hnd.1 (k, v) hm'
        simpa using this
      have hstep : List.find? (fun q => decide (q.1 = k)) (p :: rest) =
          List.find? (fun q => decide (q.1 = k)) rest :=
        List.find?_cons_of_neg _ (by simp [hne])
      unfold dGet?
      rw [hstep]
      exact ih hnd.2 hm'

theorem mem_of_dGet?_eq_some {κ β : Type} [DecidableEq κ] {d : List (κ × β)}
    {k : κ} {v : β} (h : dGet? d k = some v) : (k, v) ∈ d := by
  unfold dGet? at h
  rcases hf : d.find? (fun p => p.1 = k) with _ | p
  · rw [hf] at h
    simp at h
  · rw [hf] at h
    have hp := List.find?_some hf
    have hm := List.mem_of_find?_eq_some hf
    have hk : p.1 = k := by simpa using hp
    have hv : p.2 = v := by simpa using h
    have : p = (k, v) := Prod.ext hk hv
    exact this ▸ hm

theorem nodupKeys_of_perm {κ β : Type} {d₁ d₂ : List (κ × β)} (hp : d₁.Perm d₂)
    (h : NodupKeys d₁) : NodupKeys d₂ := by
  unfold NodupKeys at h ⊢
  exact (List.Perm.pairwise_iff (fun hne => Ne.symm hne) hp).mp h

theorem dGet?_perm {κ β : Type} [DecidableEq κ] {d₁ d₂ : List (κ × β)}
    (hnd : NodupKeys d₁) (hp : d₁.Perm d₂) (k : κ) : dGet? d₁ k = dGet? d₂ k := by
  rcases hq : dGet? d₁ k with _ | v
  · symm
    rw [dGet?_eq_none_iff] at hq ⊢
    intro p hpm
    exact hq p (hp.mem_iff.mpr hpm)
  · have hm := mem_of_dGet?_eq_some hq
    exact (dGet?_eq_some_of_mem (nodupKeys_of_perm hp hnd) (hp.mem_iff.mp hm)).symm

theorem dMem_perm {κ β : Type} [DecidableEq κ] {d₁ d₂ : List (κ × β)}
    (hp : d₁.Perm d₂) (k : κ) : dMem d₁ k = dMem d₂ k := by
  rcases hq : dMem d₂ k with _ | _
  · rw [dMem_eq_false_iff] at hq ⊢
    intro p hpm
    exact hq p (hp.mem_iff.mp hpm)
  · rw [dMem_eq_true_iff] at hq ⊢
    obtain ⟨p, hpm, hpk⟩ := hq
    exact ⟨p, hp.mem_iff.mpr hpm, hpk⟩

theorem dInsert_of_not_mem {κ β : Type} [DecidableEq κ] {d : List (κ × β)}
    {k : κ} (v : β) (h : dMem d k = false) : dInsert d k v = d ++ [(k, v)] := by
  simp [dInsert, h]

/-! ## Well-formedness of keys and dictionaries, load/save round trip -/

/-- A business key that survives the store's string processing unchanged:
no field separator, no line terminators, and `strip` does not remove a
leading whitespace run. -/
def wfKey (s : String) : Prop :=
  (∀ c ∈ s.data, c ≠ ';' ∧ c ≠ '\n' ∧ c ≠ '\r') ∧
    s.data.dropWhile isPySpace = s.data

instance (s : String) : Decidable (wfKey s) := by
  unfold wfKey
  infer_instance

/-- A well-formed in-memory index: pairwise-distinct, well-formed keys. -/
def wfDict (d : List (String × Nat)) : Prop :=
  NodupKeys d ∧ ∀ p ∈ d, wfKey p.1

instance (d : List (String × Nat)) : Decidable (wfDict d) := by
  unfold wfDict NodupKeys
  infer_instance

theorem dropWhile_eq_self_of_forall_false {p : Char → Bool} {l : List Char}
    (h : ∀ c ∈ l, p c = false) : l.dropWhile p = l := by
  cases l with
  | nil => rfl
  | cons c t => rw [List.dropWhile_cons, if_neg (by simp [h c (by simp)])]

theorem dropWhile_append_self_left {p : Char → Bool} {l₁ l₂ : List Char}
    (h₁ : l₁.dropWhile p = l₁) (h₂ : l₂.dropWhile p = l₂) :
    (l₁ ++ l₂).dropWhile p = l₁ ++ l₂ := by
  cases l₁ with
  | nil => simpa using h₂
  | cons c t =>
    rw [List.cons_append, List.dropWhile_cons,
      if_neg (by simp [head_false_of_dropWhile_self h₁])]

theorem index_line_strip (k : String) (v : Nat) (hk : wfKey k) :
    stripL ((k.data ++ ';' :: natToChars v) ++ ['\n']) =
      k.data ++ ';' :: natToChars v := by
  apply stripL_pad
  · intro c hc
    simp at hc
    simp [hc, isPySpace]
  · apply dropWhile_append_self_left hk.2
    rw [List.dropWhile_cons, if_neg (by decide)]
  · rw [List.reverse_append, List.reverse_cons]
    rw [List.append_assoc]
    apply dropWhile_append_self_left
    · exact dropWhile_eq_self_of_forall_false
        (fun c hc => (natToChars_chars v c (List.mem_reverse.mp hc)).2.2.2.2)
    · rw [List.singleton_append, List.dropWhile_cons, if_neg (by decide)]

theorem index_line_split (k : String) (v : Nat) (hk : wfKey k) :
    splitSemi (k.data ++ ';' :: natToChars v) = [k.data, natToChars v] := by
  have hds : ';' ∉ natToChars v := fun hm => (natToChars_chars v ';' hm).1 rfl
  have hkd : ';' ∉ k.data := fun hm => ((hk.1 ';' hm).1 : (';' : Char) ≠ ';') rfl
  have h1 : splitSemi (';' :: natToChars v) = [] :: [natToChars v] := by
    simp [splitSemi, splitSemi_of_not_mem _ hds]
  have := splitSemi_append k.data (';' :: natToChars v) hkd _ _ h1
  simpa using this

theorem foldl_loadLine (s : List (String × Nat)) (acc : List (String × Nat))
    (hk : ∀ p ∈ s, wfKey p.1) (hnd : NodupKeys s)
    (hfresh : ∀ p ∈ s, dMem acc p.1 = false) :
    List.foldl loadLine acc
      (s.map (fun p => (p.1.data ++ ';' :: natToChars p.2) ++ ['\n'])) = acc ++ s := by
  induction s generalizing acc with
  | nil => simp
  | cons p rest ih =>
    rw [NodupKeys, List.pairwise_cons] at hnd
    simp only [List.map_cons, List.foldl_cons]
    have hkp := hk p (by simp)
    have hstep : loadLine acc ((p.1.data ++ ';' :: natToChars p.2) ++ ['\n']) =
        acc ++ [p] := by
      unfold loadLine
      rw [if_pos (by simp)]
      rw [index_line_strip p.1 p.2 hkp, index_line_split p.1 p.2 hkp]
      show dInsert acc (⟨p.1.data⟩ : String) (parseNatChars (natToChars p.2)) = acc ++ [p]
      rw [parseNatChars_natToChars]
      have he : (⟨p.1.data⟩ : String) = p.1 := rfl
      rw [he, dInsert_of_not_mem p.2 (hfresh p (by simp))]
    rw [hstep]
    rw [ih (acc ++ [p]) (fun q hq => hk q (by simp [hq])) hnd.2 ?fresh]
    · simp
    case fresh =>
      intro q hq
      rw [dMem_eq_false_iff]
      intro r hr
      rcases List.mem_append.mp hr with hr | hr
      · exact (dMem_eq_false_iff acc q.1).mp (hfresh q (by simp [hq])) r hr
      · have : r = p := by simpa using hr
        subst this
        exact hnd.1 q hq

theorem load_index_save_index (d : List (String × Nat)) (hd : wfDict d) :
    load_index (save_index d) = insSort pairLeB d := by
  have hs_nodup : NodupKeys (insSort pairLeB d) :=
    nodupKeys_of_perm (insSort_perm pairLeB d).symm hd.1
  have hs_k : ∀ p ∈ insSort pairLeB d, wfKey p.1 :=
    fun p hp => hd.2 p ((mem_insSort _ _ _).mp hp)
  unfold load_index save_index
  rw [pyReadlines_flattenL _ ?nl]
  case nl =>
    intro l hl
    obtain ⟨p, hp, rfl⟩ := List.mem_map.mp hl
    intro hmem
    rcases List.mem_append.mp hmem with h | h
    · exact ((hs_k p hp).1 '\n' h).2.1 rfl
    · rcases List.mem_cons.mp h with h | h
      · exact absurd h (by decide)
      · exact (natToChars_chars p.2 '\n' h).2.1 rfl
  rw [List.map_map]
  have hfun : ((fun l => l ++ ['\n']) ∘ fun p : String × Nat =>
      p.1.data ++ ';' :: natToChars p.2) =
      (fun p : String × Nat => (p.1.data ++ ';' :: natToChars p.2) ++ ['\n']) := rfl
  rw [hfun]
  have hres := foldl_loadLine (insSort pairLeB d) [] hs_k hs_nodup (by simp [dMem])
  simpa using hres

theorem load_save_get (d : List (String × Nat)) (hd : wfDict d) (k : String) :
    dGet? (load_index (save_index d)) k = dGet? d k := by
  rw [load_index_save_index d hd]
  exact dGet?_perm (nodupKeys_of_perm (insSort_perm pairLeB d).symm hd.1)
    (insSort_perm pairLeB d) k

theorem load_save_mem (d : List (String × Nat)) (hd : wfDict d) (k : String) :
    dMem (load_index (save_index d)) k = dMem d k := by
  rw [load_index_save_index d hd]
  exact dMem_perm (insSort_perm pairLeB d) k

theorem load_save_length (d : List (String × Nat)) (hd : wfDict d) :
    (load_index (save_index d)).length = d.length := by
  rw [load_index_save_index d hd]
  exact length_insSort pairLeB d

/-! ## Stored record lines -/

/-- A serialized field that the store transports unchanged. -/
def wfField (f : List Char) : Prop := ';' ∉ f ∧ '\n' ∉ f ∧ '\r' ∉ f

instance (f : List Char) : Decidable (wfField f) := by
  unfold wfField
  infer_instance

/-- A serializable record: nonempty field list, clean fields, and a joined
form that `strip` leaves alone at both ends. -/
def wfRecord (fs : List (List Char)) : Prop :=
  fs ≠ [] ∧ (∀ f ∈ fs, wfField f) ∧
    (joinSemi fs).dropWhile isPySpace = joinSemi fs ∧
    (joinSemi fs).reverse.dropWhile isPySpace = (joinSemi fs).reverse

instance (fs : List (List Char)) : Decidable (wfRecord fs) := by
  unfold wfRecord
  infer_instance

theorem mem_joinSemi {c : Char} :
    ∀ {fss : List (List Char)}, c ∈ joinSemi fss → c = ';' ∨ ∃ f ∈ fss, c ∈ f := by
  intro fss
  induction fss with
  | nil => simp [joinSemi]
  | cons f rest ih =>
    rcases rest with _ | ⟨f₂, rest'⟩
    · intro h
      exact Or.inr ⟨f, by simp, by simpa [joinSemi] using h⟩
    · intro h
      rw [show joinSemi (f :: f₂ :: rest') = f ++ ';' :: joinSemi (f₂ :: rest') from rfl]
        at h
      rcases List.mem_append.mp h with h | h
      · exact Or.inr ⟨f, by simp, h⟩
      · rcases List.mem_cons.mp h with h | h
        · exact Or.inl h
        · rcases ih h with h | ⟨g, hg, hcg⟩
          · exact Or.inl h
          · exact Or.inr ⟨g, by simp [hg], hcg⟩

theorem stored_line_strip (fs : List (List Char)) (h : wfRecord fs) :
    stripL (ljustPad (joinSemi fs) LINE_LENGTH ++ ['\n']) = joinSemi fs := by
  unfold ljustPad
  rw [List.append_assoc]
  apply stripL_pad
  · intro c hc
    rcases List.mem_append.mp hc with hc | hc
    · rw [List.eq_of_mem_replicate hc]
      decide
    · rw [show c = '\n' by simpa using hc]
      decide
  · exact h.2.2.1
  · exact h.2.2.2

theorem stored_line_roundtrip (fs : List (List Char)) (h : wfRecord fs) :
    splitSemi (stripL (ljustPad (joinSemi fs) LINE_LENGTH ++ ['\n'])) = fs := by
  rw [stored_line_strip fs h]
  exact splitSemi_joinSemi fs h.1 (fun f hf => (h.2.1 f hf).1)

theorem newline_not_mem_joinSemi (fs : List (List Char)) (h : ∀ f ∈ fs, wfField f) :
    '\n' ∉ joinSemi fs := by
  intro hc
  rcases mem_joinSemi hc with hc | ⟨f, hf, hcf⟩
  · exact absurd hc (by simp)
  · exact (h f hf).2.1 hcf

theorem stored_line_wf (fs : List (List Char)) (h : ∀ f ∈ fs, wfField f)
    (hfit : (joinSemi fs).length ≤ LINE_LENGTH) :
    (ljustPad (joinSemi fs) LINE_LENGTH).length = LINE_LENGTH ∧
      '\n' ∉ ljustPad (joinSemi fs) LINE_LENGTH := by
  constructor
  · exact ljustPad_length _ _ hfit
  · exact not_mem_ljustPad _ _ _ (newline_not_mem_joinSemi fs h) (by decide)

/-! ## More dictionary lemmas -/

theorem dInsert_cons_ne {κ β : Type} [DecidableEq κ] (p : κ × β)
    (rest : List (κ × β)) (k : κ) (v : β) (h : p.1 ≠ k) :
    dInsert (p :: rest) k v = p :: dInsert rest k v := by
  unfold dInsert
  have hm : dMem (p :: rest) k = dMem rest k := by
    simp [dMem, h]
  rw [hm]
  by_cases hr : dMem rest k
  · rw [if_pos hr, if_pos hr, List.map_cons, if_neg h]
  · rw [if_neg hr, if_neg hr, List.cons_append]

theorem dGet?_dInsert_self {κ β : Type} [DecidableEq κ] (d : List (κ × β))
    (k : κ) (v : β) : dGet? (dInsert d k v) k = some v := by
  induction d with
  | nil => simp [dInsert, dMem, dGet?]
  | cons p rest ih =>
    by_cases hpk : p.1 = k
    · have hm : dMem (p :: rest) k = true := by
        simp [dMem, hpk]
      unfold dInsert
      rw [if_pos hm, List.map_cons, if_pos hpk]
      simp [dGet?]
    · rw [dInsert_cons_ne p rest k v hpk]
      unfold dGet?
      rw [List.find?_cons_of_neg _ (by simp [hpk])]
      exact ih

theorem dGet?_cons_ne {κ β : Type} [DecidableEq κ] (p : κ × β) (rest : List (κ × β))
    (k : κ) (h : p.1 ≠ k) : dGet? (p :: rest) k = dGet? rest k := by
  unfold dGet?
  rw [List.find?_cons_of_neg _ (by simp [h])]

theorem dGet?_append_left_none {κ β : Type} [DecidableEq κ] (d₁ d₂ : List (κ × β))
    (k : κ) (h : ∀ p ∈ d₁, p.1 ≠ k) : dGet? (d₁ ++ d₂) k = dGet? d₂ k := by
  induction d₁ with
  | nil => rfl
  | cons p rest ih =>
    rw [List.cons_append, dGet?_cons_ne _ _ _ (h p (by simp))]
    exact ih (fun q hq => h q (by simp [hq]))

theorem keys_dInsert_map {κ β : Type} [DecidableEq κ] (k : κ)
    (v : β) (p : κ × β) : ((fun p => if p.1 = k then (k, v) else p) p).1 = p.1 := by
  by_cases h : p.1 = k
  · simp [h]
  · simp [h]

theorem nodupKeys_dInsert {κ β : Type} [DecidableEq κ] (d : List (κ × β))
    (k : κ) (v : β) (h : NodupKeys d) : NodupKeys (dInsert d k v) := by
  unfold dInsert
  by_cases hm : dMem d k
  · rw [if_pos hm]
    unfold NodupKeys at h ⊢
    rw [List.pairwise_map]
    refine h.imp_of_mem ?_
    intro p q hp hq hne
    rw [keys_dInsert_map k v p, keys_dInsert_map k v q]
    exact hne
  · rw [if_neg hm]
    unfold NodupKeys at h ⊢
    rw [List.pairwise_append]
    refine ⟨h, by simp, ?_⟩
    intro p hp q hq
    have := (dMem_eq_false_iff d k).mp (by simpa using hm) p hp
    have hq' : q = (k, v) := by simpa using hq
    rw [hq']
    exact this

theorem wfDict_dInsert {d : List (String × Nat)} {k : String} (v : Nat)
    (hd : wfDict d) (hk : wfKey k) : wfDict (dInsert d k v) := by
  refine ⟨nodupKeys_dInsert d k v hd.1, ?_⟩
  unfold dInsert
  by_cases hm : dMem d k
  · rw [if_pos hm]
    intro p hp
    obtain ⟨q, hq, rfl⟩ := List.mem_map.mp hp
    by_cases hqk : q.1 = k
    · simpa [hqk] using hk
    · simpa [hqk] using hd.2 q hq
  · rw [if_neg hm]
    intro p hp
    rcases List.mem_append.mp hp with hp | hp
    · exact hd.2 p hp
    · have : p = (k, v) := by simpa using hp
      rw [this]
      exact hk

theorem dGet?_insSort {κ β : Type} [DecidableEq κ] (le : (κ × β) → (κ × β) → Bool)
    (d : List (κ × β)) (hnd : NodupKeys d) (k : κ) :
    dGet? (insSort le d) k = dGet? d k :=
  dGet?_perm (nodupKeys_of_perm (insSort_perm le d).symm hnd) (insSort_perm le d) k

theorem dMem_insSort2 {κ β : Type} [DecidableEq κ] (le : (κ × β) → (κ × β) → Bool)
    (d : List (κ × β)) (k : κ) : dMem (insSort le d) k = dMem d k :=
  dMem_perm (insSort_perm le d) k

theorem wfDict_insSort (d : List (String × Nat)) (hd : wfDict d) :
    wfDict (insSort pairLeB d) :=
  ⟨nodupKeys_of_perm (insSort_perm pairLeB d).symm hd.1,
    fun p hp => hd.2 p ((mem_insSort pairLeB d p).mp hp)⟩

/-! ## Reachable state shape -/

/-- Data-file well-formedness: every line exactly `LINE_LENGTH` wide and free
of the terminator. -/
def WfLines (ls : List (List Char)) : Prop :=
  ∀ l ∈ ls, l.length = LINE_LENGTH ∧ '\n' ∉ l

instance (ls : List (List Char)) : Decidable (WfLines ls) := by
  unfold WfLines
  infer_instance

/-- A store state presented by its logical content: each data file as a list
of full-width lines, each index file as the saved form of an in-memory
dictionary.  `__init__` creates the six files empty
(`mkDB [] [] [] [] [] []`), and every operation maps a state of this shape
to a state of this shape. -/
def mkDB (ml : List (List Char)) (mD : List (String × Nat)) (cl : List (List Char))
    (cD : List (String × Nat)) (sl : List (List Char)) (sD : List (String × Nat)) : DB :=
  ⟨flattenL ml, save_index mD, flattenL cl, save_index cD, flattenL sl, save_index sD⟩

/-- The serialized sale record of `sell_car`
(`f"{sale.sales_number};{sale.car_vin};{sale.cost};{sale.sales_date}".ljust(500)`). -/
def saleLine (sale : Sale) : List Char :=
  ljustPad
    (joinSemi
      [sale.sales_number.data, sale.car_vin.data, sale.cost.data, sale.sales_date.data])
    LINE_LENGTH

/-- The serialized car record of `add_car`. -/
def carLine (car : Car) : List Char :=
  ljustPad
    (joinSemi
      [car.vin.data, intToChars car.model, replaceCommaDot car.price.data,
        car.date_start.data, car.status.value.data])
    LINE_LENGTH

/-- The serialized model record of `add_model`. -/
def modelLine (model : Model) : List Char :=
  ljustPad (joinSemi [intToChars model.id, model.name.data, model.brand.data])
    LINE_LENGTH

/-- Claim C2: when `sale.car_vin` is absent from the car index, `sell_car`
first appends the sale record to the sales store and persists its index
entry, and only then fails with `NotFound`; the car store and its index are
untouched, so the sale stays recorded against a nonexistent car — the two
mutations are not atomic. -/
theorem C2_sell_car_appends_then_fails
    (ml cl sl : List (List Char)) (mD cD sD : List (String × Nat)) (sale : Sale)
    (hcD : wfDict cD) (hsD : wfDict sD) (hkey : wfKey sale.sales_number)
    (habs : dMem cD sale.car_vin = false) :
    sell_car (mkDB ml mD cl cD sl sD) sale =
      ({ mkDB ml mD cl cD sl sD with
          sales := flattenL sl ++ saleLine sale ++ ['\n'],
          sales_index :=
            save_index (dInsert (insSort pairLeB sD) sale.sales_number sD.length) },
        some Err.notFound) ∧
      dGet?
        (load_index
          (save_index (dInsert (insSort pairLeB sD) sale.sales_number sD.length)))
        sale.sales_number = some sD.length := by
  have hnone : dGet? (insSort pairLeB cD) sale.car_vin = none := by
    rw [dGet?_insSort pairLeB cD hcD.1, dGet?_eq_none_iff]
    exact (dMem_eq_false_iff cD sale.car_vin).mp habs
  constructor
  · unfold sell_car mkDB
    simp only [load_index_save_index sD hsD, load_index_save_index cD hcD,
      length_insSort, hnone]
    rfl
  · rw [load_save_get _ (wfDict_dInsert sD.length (wfDict_insSort sD hsD) hkey)]
    exact dGet?_dInsert_self _ _ _

/-- Witness for C2 at a concrete state and sale. -/
theorem C2_sell_car_appends_then_fails_witness :
    wfDict ([] : List (String × Nat)) ∧ wfKey "S1" ∧
      dMem ([] : List (String × Nat)) "V1" = false ∧
      (sell_car (mkDB [] [] [] [] [] [])
        ⟨"S1", "V1", "28000", "2024-02-01"⟩).2 = some Err.notFound := by
  refine ⟨by decide, by decide, by decide, ?_⟩
  rw [(C2_sell_car_appends_then_fails [] [] [] [] [] []
    ⟨"S1", "V1", "28000", "2024-02-01"⟩ (by decide) (by decide) (by decide)
    (by decide)).1]

theorem dMem_dInsert_self {κ β : Type} [DecidableEq κ] (d : List (κ × β))
    (k : κ) (v : β) : dMem (dInsert d k v) k = true :=
  (dMem_eq_true_iff _ _).mpr
    ⟨(k, v), mem_of_dGet?_eq_some (dGet?_dInsert_self d k v), rfl⟩

theorem wfKey_intToChars (i : Int) : wfKey (⟨intToChars i⟩ : String) := by
  constructor
  · intro c hc
    show c ≠ ';' ∧ c ≠ '\n' ∧ c ≠ '\r'
    unfold intToChars at hc
    by_cases h : i < 0
    · rw [if_pos h] at hc
      rcases List.mem_cons.mp hc with rfl | hc
      · exact ⟨by decide, by decide, by decide⟩
      · have := natToChars_chars i.natAbs c hc
        exact ⟨this.1, this.2.1, this.2.2.1⟩
    · rw [if_neg h] at hc
      have := natToChars_chars i.natAbs c hc
      exact ⟨this.1, this.2.1, this.2.2.1⟩
  · show (intToChars i).dropWhile isPySpace = intToChars i
    unfold intToChars
    by_cases h : i < 0
    · rw [if_pos h, List.dropWhile_cons, if_neg (by decide)]
    · rw [if_neg h]
      apply dropWhile_eq_self_of_forall_false
      exact fun c hc => (natToChars_chars i.natAbs c hc).2.2.2.2

/-- Running `add_model` on a state whose model index already has the id: the state is
returned untouched together with the argument. -/
theorem add_model_mem (ml cl sl : List (List Char)) (mD cD sD : List (String × Nat))
    (model : Model) (hmD : wfDict mD)
    (hmem : dMem mD (⟨intToChars model.id⟩ : String) = true) :
    add_model (mkDB ml mD cl cD sl sD) model = (mkDB ml mD cl cD sl sD, model) := by
  unfold add_model mkDB
  simp only [load_index_save_index mD hmD, dMem_insSort2, hmem]
  rfl

/-- Running `add_model` on a state whose model index lacks the id: the serialized
record is appended and the index extended at line number `mD.length`. -/
theorem add_model_fresh (ml cl sl : List (List Char)) (mD cD sD : List (String × Nat))
    (model : Model) (hmD : wfDict mD)
    (habs : dMem mD (⟨intToChars model.id⟩ : String) = false) :
    add_model (mkDB ml mD cl cD sl sD) model =
      (mkDB (ml ++ [modelLine model])
        (dInsert (insSort pairLeB mD) (⟨intToChars model.id⟩ : String) mD.length)
        cl cD sl sD, model) := by
  unfold add_model mkDB
  simp only [load_index_save_index mD hmD, dMem_insSort2, habs, length_insSort]
  rw [if_neg (by simp)]
  simp [flattenL_append, flattenL_cons, modelLine, flattenL]

/-- Running `add_car` on a state whose car index already has the vin. -/
theorem add_car_mem (ml cl sl : List (List Char)) (mD cD sD : List (String × Nat))
    (car : Car) (hcD : wfDict cD) (hmem : dMem cD car.vin = true) :
    add_car (mkDB ml mD cl cD sl sD) car = (mkDB ml mD cl cD sl sD, car) := by
  unfold add_car mkDB
  simp only [load_index_save_index cD hcD, dMem_insSort2, hmem]
  rfl

/-- Running `add_car` on a state whose car index lacks the vin. -/
theorem add_car_fresh (ml cl sl : List (List Char)) (mD cD sD : List (String × Nat))
    (car : Car) (hcD : wfDict cD) (habs : dMem cD car.vin = false) :
    add_car (mkDB ml mD cl cD sl sD) car =
      (mkDB ml mD (cl ++ [carLine car])
        (dInsert (insSort pairLeB cD) car.vin cD.length) sl sD, car) := by
  unfold add_car mkDB
  simp only [load_index_save_index cD hcD, dMem_insSort2, habs, length_insSort]
  rw [if_neg (by simp)]
  simp [flattenL_append, flattenL_cons, carLine, flattenL]

/-- Claim C6 counterexample: with the id already indexed, `add_model` returns
its argument, not the existing stored model.  After storing
`Model 1 "A" "B"`, a second call with `Model 1 "X" "Y"` appends nothing and
returns `Model 1 "X" "Y"`, while the stored record is still the serialization
of `Model 1 "A" "B"` — so the two calls do not return equal results even
though they used the same id. -/
theorem C6_add_model_counterexample :
    (add_model (add_model emptyDB ⟨1, "A", "B"⟩).1 ⟨1, "X", "Y"⟩).2 =
        (⟨1, "X", "Y"⟩ : Model) ∧
      (add_model (add_model emptyDB ⟨1, "A", "B"⟩).1 ⟨1, "X", "Y"⟩).1 =
        (add_model emptyDB ⟨1, "A", "B"⟩).1 ∧
      (add_model emptyDB ⟨1, "A", "B"⟩).1.models =
        modelLine ⟨1, "A", "B"⟩ ++ ['\n'] ∧
      (⟨1, "X", "Y"⟩ : Model) ≠ (⟨1, "A", "B"⟩ : Model) := by
  refine ⟨by decide, by decide, by decide, by decide⟩

/-- Claim C6 (amended): `add_model` is idempotent by id with
return-the-argument semantics — if the id is already indexed it appends
nothing and returns the model passed in (not the stored record); calling it
twice with the same model therefore yields exactly one stored record and two
equal results; `add_car` obeys the same policy keyed by vin. -/
theorem C6_add_idempotent_by_key
    (ml cl sl : List (List Char)) (mD cD sD : List (String × Nat))
    (model : Model) (car : Car) (hmD : wfDict mD) (hcD : wfDict cD) :
    (dMem mD (⟨intToChars model.id⟩ : String) = true →
      add_model (mkDB ml mD cl cD sl sD) model = (mkDB ml mD cl cD sl sD, model)) ∧
    (dMem cD car.vin = true →
      add_car (mkDB ml mD cl cD sl sD) car = (mkDB ml mD cl cD sl sD, car)) ∧
    (dMem mD (⟨intToChars model.id⟩ : String) = false →
      (add_model (mkDB ml mD cl cD sl sD) model).1.models =
          flattenL ml ++ (modelLine model ++ ['\n']) ∧
        add_model (add_model (mkDB ml mD cl cD sl sD) model).1 model =
          ((add_model (mkDB ml mD cl cD sl sD) model).1, model)) := by
  refine ⟨fun hmem => add_model_mem ml cl sl mD cD sD model hmD hmem,
    fun hmem => add_car_mem ml cl sl mD cD sD car hcD hmem, fun habs => ?_⟩
  rw [add_model_fresh ml cl sl mD cD sD model hmD habs]
  constructor
  · show flattenL (ml ++ [modelLine model]) = flattenL ml ++ (modelLine model ++ ['\n'])
    rw [flattenL_append, flattenL_cons]
    simp [flattenL]
  · apply add_model_mem
    · exact wfDict_dInsert mD.length (wfDict_insSort mD hmD) (wfKey_intToChars model.id)
    · rw [dMem_dInsert_self]

/-- Witness for the amended C6 at a concrete state and records. -/
theorem C6_add_idempotent_by_key_witness :
    wfDict ([] : List (String × Nat)) ∧
      add_model (add_model (mkDB [] [] [] [] [] []) ⟨1, "M", "B"⟩).1 ⟨1, "M", "B"⟩ =
        ((add_model (mkDB [] [] [] [] [] []) ⟨1, "M", "B"⟩).1, ⟨1, "M", "B"⟩) := by
  refine ⟨by decide, ?_⟩
  exact ((C6_add_idempotent_by_key [] [] [] [] [] [] ⟨1, "M", "B"⟩
    ⟨"V", 1, "1", "2024-01-01", CarStatus.available⟩ (by decide) (by decide)).2.2
    (by decide)).2

theorem nodupKeys_loadLine (acc : List (String × Nat)) (line : List Char)
    (h : NodupKeys acc) : NodupKeys (loadLine acc line) := by
  unfold loadLine
  by_cases hsemi : ';' ∈ line
  · rw [if_pos hsemi]
    rcases hs : splitSemi (stripL line) with _ | ⟨k, rest⟩
    · exact h
    · rcases rest with _ | ⟨v, rest'⟩
      · exact h
      · rcases rest' with _ | _
        · exact nodupKeys_dInsert _ _ _ h
        · exact h
  · rw [if_neg hsemi]
    exact h

theorem nodupKeys_load_index (cs : List Char) : NodupKeys (load_index cs) := by
  unfold load_index
  generalize pyReadlines cs = lines
  have H : ∀ (ls : List (List Char)) (acc : List (String × Nat)),
      NodupKeys acc → NodupKeys (List.foldl loadLine acc ls) := by
    intro ls
    induction ls with
    | nil => exact fun acc h => h
    | cons l rest ih =>
      intro acc h
      exact ih (loadLine acc l) (nodupKeys_loadLine acc l h)
  exact H lines [] (by simp [NodupKeys])

/-- The sale record is appended to the sales store by `sell_car` on every
path, before and regardless of the car lookup's outcome. -/
theorem sell_car_sales (db : DB) (sale : Sale) :
    (sell_car db sale).1.sales = db.sales ++ saleLine sale ++ ['\n'] := by
  unfold sell_car
  rcases h : dGet? (load_index db.cars_index) sale.car_vin with _ | n
  · simp only [h]
    rfl
  · simp only [h]
    split
    · rfl
    · rfl

/-- Claim C9 counterexample: calling `sell_car` twice with the same
sales_number (against an existing car) leaves two sale lines keyed `S1` in
the sales store, so a duplicate insertion is neither rejected nor a no-op. -/
theorem C9_duplicate_sale_counterexample :
    ((pyReadlines
        (sell_car
          (sell_car
            (mkDB [] []
              [carLine ⟨"V1", 1, "30000", "2024-01-01", CarStatus.available⟩]
              [("V1", 0)] [] [])
            ⟨"S1", "V1", "28000", "2024-02-01"⟩).1
          ⟨"S1", "V1", "28000", "2024-02-01"⟩).1.sales).map
      (fun l => (splitSemi (stripL l)).getD 0 [])) = ["S1".data, "S1".data] ∧
    (sell_car
        (sell_car
          (mkDB [] []
            [carLine ⟨"V1", 1, "30000", "2024-01-01", CarStatus.available⟩]
            [("V1", 0)] [] [])
          ⟨"S1", "V1", "28000", "2024-02-01"⟩).1
        ⟨"S1", "V1", "28000", "2024-02-01"⟩).2 = none := by
  exact ⟨by decide, by decide⟩

/-- Claim C9 (amended): index mappings do keep keys unique — any loaded
index has pairwise-distinct keys, and duplicate adds are no-ops — but
`sell_car` never checks its key: it appends the serialized sale record
unconditionally, so a second call with an already-present sales_number adds
a second stored line with that key (the index then points at the later
line). -/
theorem C9_index_unique_but_sales_duplicated
    (ml cl sl : List (List Char)) (mD cD sD : List (String × Nat)) (sale : Sale)
    (hrec : wfRecord
      [sale.sales_number.data, sale.car_vin.data, sale.cost.data, sale.sales_date.data])
    (hsl : ∀ l ∈ sl, '\n' ∉ l) :
    (∀ cs : List Char, NodupKeys (load_index cs)) ∧
      pyReadlines ((sell_car (mkDB ml mD cl cD sl sD) sale).1.sales) =
        sl.map (fun l => l ++ ['\n']) ++ [saleLine sale ++ ['\n']] ∧
      (splitSemi (stripL (saleLine sale ++ ['\n']))).getD 0 [] =
        sale.sales_number.data := by
  refine ⟨nodupKeys_load_index, ?_, ?_⟩
  · rw [sell_car_sales]
    have hnl : '\n' ∉ saleLine sale :=
      not_mem_ljustPad _ _ _ (newline_not_mem_joinSemi _ hrec.2.1) (by decide)
    have : (mkDB ml mD cl cD sl sD).sales ++ saleLine sale ++ ['\n'] =
        flattenL (sl ++ [saleLine sale]) := by
      rw [flattenL_append, flattenL_cons]
      simp [flattenL, mkDB]
    rw [this, pyReadlines_flattenL]
    · simp
    · intro l hl
      rcases List.mem_append.mp hl with hl | hl
      · exact hsl l hl
      · rw [show l = saleLine sale by simpa using hl]
        exact hnl
  · rw [show saleLine sale = ljustPad
      (joinSemi
        [sale.sales_number.data, sale.car_vin.data, sale.cost.data,
          sale.sales_date.data]) LINE_LENGTH from rfl,
      stored_line_roundtrip _ hrec]
    rfl

/-- Witness for the amended C9. -/
theorem C9_index_unique_but_sales_duplicated_witness :
    wfRecord ["S1".data, "V1".data, "28000".data, "2024-02-01".data] ∧
      pyReadlines
        ((sell_car (mkDB [] [] [] [] [] []) ⟨"S1", "V1", "28000", "2024-02-01"⟩).1.sales) =
        [saleLine ⟨"S1", "V1", "28000", "2024-02-01"⟩ ++ ['\n']] := by
  refine ⟨by decide, ?_⟩
  have h := (C9_index_unique_but_sales_duplicated [] [] [] [] [] []
    ⟨"S1", "V1", "28000", "2024-02-01"⟩ (by decide) (by simp)).2.1
  simpa using h

/-! ## The lexicographic order used by `sorted` -/

theorem string_ext {s t : String} (h : s.data = t.data) : s = t := by
  cases s
  cases t
  exact congrArg String.mk (by simpa using h)

theorem charListLtB_irrefl (a : List Char) : charListLtB a a = false := by
  induction a with
  | nil => rfl
  | cons c t ih => simp [charListLtB, ih]

theorem charListLtB_trans (a b c : List Char) (h1 : charListLtB a b = true)
    (h2 : charListLtB b c = true) : charListLtB a c = true := by
  induction a generalizing b c with
  | nil =>
    cases c with
    | nil =>
      cases b with
      | nil => exact h1
      | cons y ys => simp [charListLtB] at h2
    | cons z zs => simp [charListLtB]
  | cons x xs ih =>
    cases b with
    | nil => simp [charListLtB] at h1
    | cons y ys =>
      cases c with
      | nil => simp [charListLtB] at h2
      | cons z zs =>
        simp only [charListLtB, Bool.or_eq_true, Bool.and_eq_true,
          decide_eq_true_eq] at h1 h2 ⊢
        rcases h1 with h1 | ⟨rfl, h1⟩
        · rcases h2 with h2 | ⟨rfl, h2⟩
          · exact Or.inl (lt_trans h1 h2)
          · exact Or.inl h1
        · rcases h2 with h2 | ⟨rfl, h2⟩
          · exact Or.inl h2
          · exact Or.inr ⟨rfl, ih ys zs h1 h2⟩

theorem charListLtB_asymm (a b : List Char) (h : charListLtB a b = true) :
    charListLtB b a = false := by
  by_contra hb
  have hb' : charListLtB b a = true := by
    revert hb
    cases charListLtB b a <;> simp
  have := charListLtB_trans a b a h hb'
  rw [charListLtB_irrefl] at this
  exact absurd this (by simp)

theorem charListLtB_trichotomy (a b : List Char) :
    charListLtB a b = true ∨ a = b ∨ charListLtB b a = true := by
  induction a generalizing b with
  | nil =>
    cases b with
    | nil => exact Or.inr (Or.inl rfl)
    | cons y ys => exact Or.inl (by simp [charListLtB])
  | cons x xs ih =>
    cases b with
    | nil => exact Or.inr (Or.inr (by simp [charListLtB]))
    | cons y ys =>
      rcases lt_trichotomy x y with hxy | rfl | hxy
      · exact Or.inl (by simp [charListLtB, hxy])
      · rcases ih ys with h | rfl | h
        · exact Or.inl (by simp [charListLtB, h])
        · exact Or.inr (Or.inl rfl)
        · exact Or.inr (Or.inr (by simp [charListLtB, h]))
      · exact Or.inr (Or.inr (by simp [charListLtB, hxy]))

theorem pairLtB_trans (p q r : String × Nat) (h1 : pairLtB p q = true)
    (h2 : pairLtB q r = true) : pairLtB p r = true := by
  simp only [pairLtB, Bool.or_eq_true, Bool.and_eq_true, decide_eq_true_eq] at h1 h2 ⊢
  rcases h1 with h1 | ⟨he1, hv1⟩
  · rcases h2 with h2 | ⟨he2, hv2⟩
    · exact Or.inl (charListLtB_trans _ _ _ h1 h2)
    · exact Or.inl (he2 ▸ h1)
  · rcases h2 with h2 | ⟨he2, hv2⟩
    · exact Or.inl (he1 ▸ h2)
    · exact Or.inr ⟨he1.trans he2, lt_trans hv1 hv2⟩

theorem pairLtB_irrefl (p : String × Nat) : pairLtB p p = false := by
  simp [pairLtB, charListLtB_irrefl]

theorem pairLtB_asymm (p q : String × Nat) (h : pairLtB p q = true) :
    pairLtB q p = false := by
  by_contra hb
  have hb' : pairLtB q p = true := by
    revert hb
    cases pairLtB q p <;> simp
  have := pairLtB_trans p q p h hb'
  rw [pairLtB_irrefl] at this
  exact absurd this (by simp)

theorem pairLtB_trichotomy (p q : String × Nat) :
    pairLtB p q = true ∨ p = q ∨ pairLtB q p = true := by
  rcases charListLtB_trichotomy p.1.data q.1.data with h | h | h
  · exact Or.inl (by simp [pairLtB, h])
  · have he : p.1 = q.1 := string_ext h
    rcases lt_trichotomy p.2 q.2 with hv | hv | hv
    · exact Or.inl (by simp [pairLtB, he, hv])
    · exact Or.inr (Or.inl (Prod.ext he hv))
    · exact Or.inr (Or.inr (by simp [pairLtB, he.symm, hv]))
  · exact Or.inr (Or.inr (by simp [pairLtB, h]))

theorem pairLeB_total (p q : String × Nat) : pairLeB p q || pairLeB q p := by
  by_cases h : pairLtB q p = true
  · have := pairLtB_asymm q p h
    simp [pairLeB, this]
  · simp [pairLeB, h]

theorem pairLeB_trans (p q r : String × Nat) (h1 : pairLeB p q = true)
    (h2 : pairLeB q r = true) : pairLeB p r = true := by
  simp only [pairLeB, Bool.not_eq_true'] at h1 h2 ⊢
  by_contra hb
  have hrp : pairLtB r p = true := by
    revert hb
    cases pairLtB r p <;> simp
  rcases pairLtB_trichotomy p q with h | rfl | h
  · have := pairLtB_trans r p q hrp h
    rw [h2] at this
    exact absurd this (by simp)
  · rw [h2] at hrp
    exact absurd hrp (by simp)
  · rw [h] at h1
    exact absurd h1 (by simp)

theorem charListLtB_of_pairLeB_ne (p q : String × Nat) (h : pairLeB p q = true)
    (hne : p.1 ≠ q.1) : charListLtB p.1.data q.1.data = true := by
  rcases charListLtB_trichotomy p.1.data q.1.data with hlt | he | hlt
  · exact hlt
  · exact absurd (string_ext he) hne
  · have : pairLtB q p = true := by simp [pairLtB, hlt]
    rw [pairLeB, this] at h
    exact absurd h (by simp)

/-- Claim C10 counterexample: the key `" a"` contains no `';'` and no
newline, yet saving `[(" a", 0)]` and loading it back yields the mapping
`[("a", 0)]` — `line.strip()` removes the key's leading whitespace, so the
round trip does not return an equal mapping. -/
theorem C10_load_save_counterexample :
    load_index (save_index [((" a" : String), 0)]) = [(("a" : String), 0)] ∧
      dGet? (load_index (save_index [((" a" : String), 0)])) " a" = none ∧
      (∀ c ∈ (" a" : String).data, c ≠ ';' ∧ c ≠ '\n') ∧
      (" a" : String) ≠ ("a" : String) := by
  exact ⟨by decide, by decide, by decide, by decide⟩

/-- Claim C10 (amended): for every index mapping with pairwise-distinct keys
that contain no `';'`, no newline or carriage return, and do not begin with
whitespace, `_save_index` followed by `_load_index` returns an equal mapping
(same lookup at every key, same membership, same size), and the persisted
file is exactly one `key;line_number` line per entry, listed in strictly
ascending (lexicographic code-point) key order. -/
theorem C10_save_load_roundtrip (d : List (String × Nat)) (hd : wfDict d) :
    (∀ k, dGet? (load_index (save_index d)) k = dGet? d k) ∧
      (∀ k, dMem (load_index (save_index d)) k = dMem d k) ∧
      (load_index (save_index d)).length = d.length ∧
      pyReadlines (save_index d) =
        (insSort pairLeB d).map
          (fun p => (p.1.data ++ ';' :: natToChars p.2) ++ ['\n']) ∧
      (insSort pairLeB d).Perm d ∧
      List.Pairwise (fun p q => charListLtB p.1.data q.1.data = true)
        (insSort pairLeB d) := by
  refine ⟨load_save_get d hd, load_save_mem d hd, load_save_length d hd, ?_, insSort_perm pairLeB d, ?_⟩
  · unfold save_index
    rw [pyReadlines_flattenL, List.map_map]
    · rfl
    · intro l hl
      obtain ⟨p, hp, rfl⟩ := List.mem_map.mp hl
      intro hmem
      have hk := hd.2 p ((mem_insSort pairLeB d p).mp hp)
      rcases List.mem_append.mp hmem with h | h
      · exact (hk.1 '\n' h).2.1 rfl
      · rcases List.mem_cons.mp h with h | h
        · exact absurd h (by decide)
        · exact (natToChars_chars p.2 '\n' h).2.1 rfl
  · have hle := @pairwise_insSort (String × Nat) pairLeB
      (fun a b => pairLeB_total a b) (fun a b c => pairLeB_trans a b c) d
    have hnd : NodupKeys (insSort pairLeB d) :=
      nodupKeys_of_perm (insSort_perm pairLeB d).symm hd.1
    exact (hle.and hnd).imp
      (fun h => charListLtB_of_pairLeB_ne _ _ h.1 h.2)

/-- Witness for the amended C10. -/
theorem C10_save_load_roundtrip_witness :
    wfDict [(("b" : String), 1), (("a" : String), 0)] ∧
      dGet? (load_index (save_index [(("b" : String), 1), (("a" : String), 0)])) "b" =
        some 1 := by
  refine ⟨by decide, ?_⟩
  rw [(C10_save_load_roundtrip [(("b" : String), 1), (("a" : String), 0)]
    (by decide)).1 "b"]
  decide

/-- Claim C3: the code never validates the record width.  `add_model` with a
600-character name succeeds (there is no failure channel at all), writes a
line of more than `LINE_LENGTH + 1` bytes, and corrupts the offset
arithmetic: after a second, normal `add_model`, the index maps id `2` to
line 1, but seeking to `1 * (LINE_LENGTH + 1)` no longer returns that
record's line — the over-wide record overflowed into the next slot. -/
theorem C3_overwide_record_not_rejected :
    (modelLine ⟨1, (⟨List.replicate 600 'x'⟩ : String), "B"⟩).length > LINE_LENGTH ∧
      (add_model emptyDB ⟨1, (⟨List.replicate 600 'x'⟩ : String), "B"⟩).1.models.length >
        LINE_LENGTH + 1 ∧
      (add_model emptyDB ⟨1, (⟨List.replicate 600 'x'⟩ : String), "B"⟩).2 =
        (⟨1, (⟨List.replicate 600 'x'⟩ : String), "B"⟩ : Model) ∧
      dGet?
        (load_index
          (add_model (add_model emptyDB ⟨1, (⟨List.replicate 600 'x'⟩ : String), "B"⟩).1
            ⟨2, "M", "B"⟩).1.models_index) "2" = some 1 ∧
      readlineAt
        (add_model (add_model emptyDB ⟨1, (⟨List.replicate 600 'x'⟩ : String), "B"⟩).1
          ⟨2, "M", "B"⟩).1.models (1 * (LINE_LENGTH + 1)) ≠
        modelLine ⟨2, "M", "B"⟩ ++ ['\n'] := by
  exact ⟨by decide, by decide, by decide, by decide, by decide⟩

/-! ## Auxiliary facts for `get_car_info` -/

theorem parseStatus_value (s : CarStatus) : parseStatus s.value = some s := by
  cases s <;> decide

theorem replaceCommaDot_eq_self (cs : List Char) (h : ',' ∉ cs) :
    replaceCommaDot cs = cs := by
  unfold replaceCommaDot
  induction cs with
  | nil => rfl
  | cons c t ih =>
    have hc : c ≠ ',' := by
      intro e
      exact h (by simp [e])
    rw [List.map_cons, if_neg hc, ih (fun m => h (by simp [m]))]

theorem getD_append_length {α : Type} (l : List α) (x d : α) :
    (l ++ [x]).getD l.length d = x := by
  induction l with
  | nil => rfl
  | cons a t ih =>
    simp only [List.cons_append, List.length_cons, List.getD_cons_succ]
    exact ih

/-- Running `get_car_info` when the vin is absent from the car index. -/
theorem get_car_info_absent (ml cl sl : List (List Char))
    (mD cD sD : List (String × Nat)) (vin : String) (hcD : wfDict cD)
    (habs : dGet? cD vin = none) :
    get_car_info (mkDB ml mD cl cD sl sD) vin = none := by
  unfold get_car_info mkDB
  simp only [load_index_save_index cD hcD, dGet?_insSort pairLeB cD hcD.1, habs]

/-- Running `get_car_info` when the car record parses but its model reference is
dangling: the failure is surfaced as `none`, never a fabricated record. -/
theorem get_car_info_dangling_model (ml cl sl : List (List Char))
    (mD cD sD : List (String × Nat)) (vin : String) (fs : List (List Char)) (n : Nat)
    (hmD : wfDict mD) (hcD : wfDict cD) (hcw : WfLines cl)
    (hget : dGet? cD vin = some n) (hn : n < cl.length)
    (hline : cl.getD n [] = ljustPad (joinSemi fs) LINE_LENGTH)
    (hrec : wfRecord fs) (h5 : 5 ≤ fs.length) (st : CarStatus)
    (hstat : parseStatus (⟨fs.getD 4 []⟩ : String) = some st)
    (hmabs : dGet? mD (⟨intToChars (parseIntChars (fs.getD 1 []))⟩ : String) = none) :
    get_car_info (mkDB ml mD cl cD sl sD) vin = none := by
  unfold get_car_info mkDB
  simp only [load_index_save_index cD hcD, dGet?_insSort pairLeB cD hcD.1, hget]
  rw [readlineAt_flattenL cl n hcw hn, hline, stored_line_roundtrip fs hrec]
  rw [if_neg (by omega)]
  simp only [hstat, load_index_save_index mD hmD, dGet?_insSort pairLeB mD hmD.1, hmabs]

/-- Running `get_car_info` on a fully resolvable vin: the joined record. -/
theorem get_car_info_success (ml cl sl : List (List Char))
    (mD cD sD : List (String × Nat)) (vin : String) (fs mfs : List (List Char))
    (n mln : Nat) (hmD : wfDict mD) (hcD : wfDict cD) (hcw : WfLines cl)
    (hmw : WfLines ml) (hget : dGet? cD vin = some n) (hn : n < cl.length)
    (hline : cl.getD n [] = ljustPad (joinSemi fs) LINE_LENGTH)
    (hrec : wfRecord fs) (h5 : 5 ≤ fs.length) (st : CarStatus)
    (hstat : parseStatus (⟨fs.getD 4 []⟩ : String) = some st)
    (hmget : dGet? mD (⟨intToChars (parseIntChars (fs.getD 1 []))⟩ : String) = some mln)
    (hmln : mln < ml.length)
    (hmline : ml.getD mln [] = ljustPad (joinSemi mfs) LINE_LENGTH)
    (hmrec : wfRecord mfs) (hm3 : 3 ≤ mfs.length) :
    get_car_info (mkDB ml mD cl cD sl sD) vin =
      some
        { vin := (⟨fs.getD 0 []⟩ : String),
          car_model_name := (⟨mfs.getD 1 []⟩ : String),
          car_model_brand := (⟨mfs.getD 2 []⟩ : String),
          price := (⟨fs.getD 2 []⟩ : String),
          date_start := (⟨fs.getD 3 []⟩ : String),
          status := st,
          sales_date :=
            (if st = CarStatus.sold then find_first_sale (pyReadlines (flattenL sl)) vin.data
             else none).map (fun p => (⟨p.2⟩ : String)),
          sales_cost :=
            (if st = CarStatus.sold then find_first_sale (pyReadlines (flattenL sl)) vin.data
             else none).map (fun p => (⟨p.1⟩ : String)) } := by
  unfold get_car_info mkDB
  simp only [load_index_save_index cD hcD, dGet?_insSort pairLeB cD hcD.1, hget]
  rw [readlineAt_flattenL cl n hcw hn, hline, stored_line_roundtrip fs hrec]
  rw [if_neg (by omega)]
  simp only [hstat, load_index_save_index mD hmD, dGet?_insSort pairLeB mD hmD.1, hmget]
  rw [readlineAt_flattenL ml mln hmw hmln, hmline, stored_line_roundtrip mfs hmrec]
  rw [if_neg (by omega)]

/-- Claim C8: `get_car_info` surfaces its failures: when the vin is absent
from the car index it returns the failure value `None` (the function's
`CarFullInfo | None` failure channel), and when the stored car's model
reference is dangling — the car line parses but its model id is not in the
model index — it again returns `None`; neither case is converted into a
fabricated `CarFullInfo`. -/
theorem C8_get_car_info_failures_surfaced (ml cl sl : List (List Char))
    (mD cD sD : List (String × Nat)) (vin : String) (fs : List (List Char))
    (n : Nat) (st : CarStatus) (hmD : wfDict mD) (hcD : wfDict cD)
    (hcw : WfLines cl) :
    (dGet? cD vin = none → get_car_info (mkDB ml mD cl cD sl sD) vin = none) ∧
      (dGet? cD vin = some n → n < cl.length →
        cl.getD n [] = ljustPad (joinSemi fs) LINE_LENGTH → wfRecord fs →
        5 ≤ fs.length → parseStatus (⟨fs.getD 4 []⟩ : String) = some st →
        dGet? mD (⟨intToChars (parseIntChars (fs.getD 1 []))⟩ : String) = none →
        get_car_info (mkDB ml mD cl cD sl sD) vin = none) := by
  constructor
  · intro habs
    exact get_car_info_absent ml cl sl mD cD sD vin hcD habs
  · intro hget hn hline hrec h5 hstat hmabs
    exact get_car_info_dangling_model ml cl sl mD cD sD vin fs n hmD hcD hcw hget hn
      hline hrec h5 st hstat hmabs

/-- Witness for C8: on the empty store every lookup fails with `None`. -/
theorem C8_get_car_info_failures_surfaced_witness :
    dGet? ([] : List (String × Nat)) "V1" = none ∧
      get_car_info (mkDB [] [] [] [] [] []) "V1" = none := by
  refine ⟨by decide, ?_⟩
  exact (C8_get_car_info_failures_surfaced [] [] [] [] [] [] "V1" [] 0
    CarStatus.available (by decide) (by decide) (by decide)).1 (by decide)

/-- The field list of the serialized car record. -/
def carFields (car : Car) : List (List Char) :=
  [car.vin.data, intToChars car.model, replaceCommaDot car.price.data,
    car.date_start.data, car.status.value.data]

theorem carLine_def (car : Car) :
    carLine car = ljustPad (joinSemi (carFields car)) LINE_LENGTH := rfl

/-- The field list of the serialized model record. -/
def modelFields (model : Model) : List (List Char) :=
  [intToChars model.id, model.name.data, model.brand.data]

theorem modelLine_def (model : Model) :
    modelLine model = ljustPad (joinSemi (modelFields model)) LINE_LENGTH := rfl

/-- Claim C1: for a valid car whose vin is not yet indexed (and whose model
reference resolves), `add_car(car)` followed by `get_car_info(car.vin)`
returns a `CarFullInfo` whose vin, price, date_start and status equal the
car's. -/
theorem C1_add_car_get_car_info_roundtrip (ml cl sl : List (List Char))
    (mD cD sD : List (String × Nat)) (car : Car) (mfs : List (List Char)) (mln : Nat)
    (hmD : wfDict mD) (hcD : wfDict cD) (hcw : WfLines cl) (hmw : WfLines ml)
    (hlen : cD.length = cl.length) (hvin : wfKey car.vin)
    (habs : dMem cD car.vin = false) (hrec : wfRecord (carFields car))
    (hfit : (joinSemi (carFields car)).length ≤ LINE_LENGTH)
    (hprice : ',' ∉ car.price.data)
    (hmget : dGet? mD (⟨intToChars car.model⟩ : String) = some mln)
    (hmln : mln < ml.length)
    (hmline : ml.getD mln [] = ljustPad (joinSemi mfs) LINE_LENGTH)
    (hmrec : wfRecord mfs) (hm3 : 3 ≤ mfs.length) :
    ∃ info : CarFullInfo,
      get_car_info (add_car (mkDB ml mD cl cD sl sD) car).1 car.vin = some info ∧
        info.vin = car.vin ∧ info.price = car.price ∧
        info.date_start = car.date_start ∧ info.status = car.status := by
  rw [add_car_fresh ml cl sl mD cD sD car hcD habs]
  have hmain := get_car_info_success ml (cl ++ [carLine car]) sl mD
    (dInsert (insSort pairLeB cD) car.vin cD.length) sD car.vin (carFields car) mfs
    cD.length mln hmD
    (wfDict_dInsert cD.length (wfDict_insSort cD hcD) hvin)
    (by
      intro l hl
      rcases List.mem_append.mp hl with hl | hl
      · exact hcw l hl
      · rw [show l = carLine car by simpa using hl, carLine_def]
        exact stored_line_wf (carFields car) hrec.2.1 hfit)
    hmw (dGet?_dInsert_self _ _ _)
    (by simp; omega)
    (by rw [hlen, getD_append_length, carLine_def])
    hrec (by simp [carFields]) car.status
    (parseStatus_value car.status)
    (by
      show dGet? mD (⟨intToChars (parseIntChars (intToChars car.model))⟩ : String) =
        some mln
      rw [parseIntChars_intToChars]
      exact hmget)
    hmln hmline hmrec hm3
  refine ⟨_, hmain, rfl, ?_, rfl, rfl⟩
  show (⟨replaceCommaDot car.price.data⟩ : String) = car.price
  rw [replaceCommaDot_eq_self _ hprice]

/-- Witness for C1 at a concrete model, car and state. -/
theorem C1_add_car_get_car_info_roundtrip_witness :
    wfKey "V1" ∧
      ∃ info : CarFullInfo,
        get_car_info
          (add_car (mkDB [modelLine ⟨1, "Model3", "Tesla"⟩] [("1", 0)] [] [] [] [])
            ⟨"V1", 1, "30000", "2024-01-01", CarStatus.available⟩).1 "V1" =
          some info ∧
          info.vin = "V1" ∧ info.price = "30000" ∧
          info.date_start = "2024-01-01" ∧ info.status = CarStatus.available :=
  ⟨by decide,
    C1_add_car_get_car_info_roundtrip [modelLine ⟨1, "Model3", "Tesla"⟩] [] []
      [("1", 0)] [] [] ⟨"V1", 1, "30000", "2024-01-01", CarStatus.available⟩
      (modelFields ⟨1, "Model3", "Tesla"⟩) 0 (by decide) (by decide) (by decide)
      (by decide) (by decide) (by decide) (by decide) (by decide) (by decide)
      (by decide) (by decide) (by decide) (by decide) (by decide) (by decide)⟩

/-! ## List `set` and dictionary update/erase lookup lemmas -/

theorem getD_set_self {α : Type} (l : List α) (n : Nat) (a d : α) (h : n < l.length) :
    (l.set n a).getD n d = a := by
  induction l generalizing n with
  | nil => simp at h
  | cons x t ih =>
    rcases n with _ | m
    · rfl
    · simpa using ih m (by simpa using h)

theorem getD_set_ne {α : Type} (l : List α) (n m : Nat) (a d : α) (h : n ≠ m) :
    (l.set n a).getD m d = l.getD m d := by
  induction l generalizing n m with
  | nil => simp
  | cons x t ih =>
    rcases n with _ | n'
    · rcases m with _ | m'
      · exact absurd rfl h
      · rfl
    · rcases m with _ | m'
      · rfl
      · simpa using ih n' m' (by omega)

theorem dGet?_mapUpdate_ne {κ β : Type} [DecidableEq κ] (d : List (κ × β))
    (k k' : κ) (v : β) (h : k' ≠ k) :
    dGet? (d.map (fun p => if p.1 = k then (k, v) else p)) k' = dGet? d k' := by
  induction d with
  | nil => rfl
  | cons q rest ih =>
    rw [List.map_cons]
    by_cases hq : q.1 = k
    · rw [if_pos hq]
      rw [dGet?_cons_ne _ _ _ (fun e => h e.symm), dGet?_cons_ne _ _ _ ?hne]
      · exact ih
      · rw [hq]
        exact fun e => h e.symm
    · rw [if_neg hq]
      by_cases hq' : q.1 = k'
      · unfold dGet?
        rw [List.find?_cons_of_pos _ (by simp [hq']), List.find?_cons_of_pos _ (by simp [hq'])]
      · rw [dGet?_cons_ne _ _ _ hq', dGet?_cons_ne _ _ _ hq']
        exact ih

theorem dGet?_append_single_ne {κ β : Type} [DecidableEq κ] (d : List (κ × β))
    (k k' : κ) (v : β) (h : k' ≠ k) :
    dGet? (d ++ [(k, v)]) k' = dGet? d k' := by
  induction d with
  | nil =>
    simp only [List.nil_append]
    unfold dGet?
    rw [List.find?_cons_of_neg _ (by simp [Ne.symm h])]
  | cons p rest ih =>
    by_cases hp : p.1 = k'
    · unfold dGet?
      rw [List.cons_append, List.find?_cons_of_pos _ (by simp [hp]),
        List.find?_cons_of_pos _ (by simp [hp])]
    · rw [List.cons_append, dGet?_cons_ne _ _ _ hp, dGet?_cons_ne _ _ _ hp]
      exact ih

theorem dGet?_dInsert_ne {κ β : Type} [DecidableEq κ] (d : List (κ × β))
    (k k' : κ) (v : β) (h : k' ≠ k) :
    dGet? (dInsert d k v) k' = dGet? d k' := by
  unfold dInsert
  by_cases hm : dMem d k
  · rw [if_pos hm]
    exact dGet?_mapUpdate_ne d k k' v h
  · rw [if_neg hm]
    exact dGet?_append_single_ne d k k' v h

theorem dGet?_dErase_self (d : List (String × Nat)) (k : String)
    (h : NodupKeys d) : dGet? (dErase d k) k = none := by
  induction d with
  | nil => rfl
  | cons p rest ih =>
    rw [NodupKeys, List.pairwise_cons] at h
    by_cases hp : p.1 = k
    · unfold dErase
      rw [List.eraseP_cons_of_pos (by simp [hp])]
      rw [dGet?_eq_none_iff]
      intro q hq
      have := h.1 q hq
      rw [hp] at this
      exact this.symm
    · unfold dErase
      rw [List.eraseP_cons_of_neg (by simp [hp])]
      show dGet? (p :: dErase rest k) k = none
      rw [dGet?_cons_ne _ _ _ hp]
      exact ih h.2

theorem wfDict_dErase (d : List (String × Nat)) (k : String) (hd : wfDict d) :
    wfDict (dErase d k) := by
  constructor
  · exact List.Pairwise.sublist (List.eraseP_sublist d) hd.1
  · intro p hp
    exact hd.2 p ((List.eraseP_sublist d).subset hp)

/-- The success path of `update_vin`: the car line is rewritten in place with
only the vin field changed, and the index key moves to the new vin at the
same line number. -/
theorem update_vin_success (ml cl sl : List (List Char))
    (mD cD sD : List (String × Nat)) (old_vin new_vin : String)
    (fs : List (List Char)) (n : Nat) (hcD : wfDict cD) (hcw : WfLines cl)
    (hget : dGet? cD old_vin = some n) (hnew : dMem cD new_vin = false)
    (hn : n < cl.length)
    (hline : cl.getD n [] = ljustPad (joinSemi fs) LINE_LENGTH)
    (hrec : wfRecord fs)
    (hfit2 : (joinSemi (fs.set 0 new_vin.data)).length ≤ LINE_LENGTH) :
    update_vin (mkDB ml mD cl cD sl sD) old_vin new_vin =
      (mkDB ml mD
        (cl.set n (ljustPad (joinSemi (fs.set 0 new_vin.data)) LINE_LENGTH))
        (dInsert (dErase (insSort pairLeB cD) old_vin) new_vin n) sl sD, none) := by
  unfold update_vin mkDB
  simp only [load_index_save_index cD hcD, dGet?_insSort pairLeB cD hcD.1, hget,
    dMem_insSort2 pairLeB cD new_vin, hnew]
  rw [if_neg (by simp)]
  rw [readlineAt_flattenL cl n hcw hn, hline]
  rw [if_neg (by simp)]
  rw [stored_line_roundtrip fs hrec]
  rw [splice_flattenL cl n _ (fun l hl => (hcw l hl).1) hn
    (ljustPad_length _ _ hfit2)]

/-- Claim C5 counterexample: with car `V1` indexed and `V2` absent,
`update_vin("V2", "V1")` is a silent no-op — it does not fail with
`Conflict` even though `new_vin = "V1"` is already indexed, because the
absent-`old_vin` check comes first. -/
theorem C5_update_vin_counterexample :
    update_vin
        (mkDB [] []
          [carLine ⟨"V1", 1, "30000", "2024-01-01", CarStatus.available⟩]
          [("V1", 0)] [] []) "V2" "V1" =
      (mkDB [] []
        [carLine ⟨"V1", 1, "30000", "2024-01-01", CarStatus.available⟩]
        [("V1", 0)] [] [], none) ∧
      dMem
        (load_index
          (mkDB [] []
            [carLine ⟨"V1", 1, "30000", "2024-01-01", CarStatus.available⟩]
            [("V1", 0)] [] []).cars_index) "V1" = true := by
  exact ⟨by decide, by decide⟩

/-- Claim C5 (amended): `update_vin(old_vin, new_vin)` is a silent no-op
whenever `old_vin` is absent (even if `new_vin` is indexed); it fails with
`Conflict` when `old_vin` is present and `new_vin` is already indexed; and
otherwise it rewrites only the vin field of the car line in place and moves
the index entry to `new_vin` at the same line number, after which
`get_car_info(old_vin)` fails with `NotFound` (`None`) and
`get_car_info(new_vin)` returns the record previously stored under
`old_vin`. -/
theorem C5_update_vin_rename (ml cl sl : List (List Char))
    (mD cD sD : List (String × Nat)) (old_vin new_vin : String)
    (fs mfs : List (List Char)) (n mln : Nat) (st : CarStatus)
    (hmD : wfDict mD) (hcD : wfDict cD) (hcw : WfLines cl) (hmw : WfLines ml) :
    (dGet? cD old_vin = none →
      update_vin (mkDB ml mD cl cD sl sD) old_vin new_vin =
        (mkDB ml mD cl cD sl sD, none)) ∧
    (dGet? cD old_vin = some n → dMem cD new_vin = true →
      update_vin (mkDB ml mD cl cD sl sD) old_vin new_vin =
        (mkDB ml mD cl cD sl sD, some Err.conflict)) ∧
    (dGet? cD old_vin = some n → dMem cD new_vin = false → wfKey new_vin →
      n < cl.length → cl.getD n [] = ljustPad (joinSemi fs) LINE_LENGTH →
      wfRecord fs → wfRecord (fs.set 0 new_vin.data) →
      (joinSemi (fs.set 0 new_vin.data)).length ≤ LINE_LENGTH → 5 ≤ fs.length →
      parseStatus (⟨fs.getD 4 []⟩ : String) = some st →
      dGet? mD (⟨intToChars (parseIntChars (fs.getD 1 []))⟩ : String) = some mln →
      mln < ml.length → ml.getD mln [] = ljustPad (joinSemi mfs) LINE_LENGTH →
      wfRecord mfs → 3 ≤ mfs.length →
      update_vin (mkDB ml mD cl cD sl sD) old_vin new_vin =
        (mkDB ml mD
          (cl.set n (ljustPad (joinSemi (fs.set 0 new_vin.data)) LINE_LENGTH))
          (dInsert (dErase (insSort pairLeB cD) old_vin) new_vin n) sl sD, none) ∧
      get_car_info (update_vin (mkDB ml mD cl cD sl sD) old_vin new_vin).1
        old_vin = none ∧
      (∃ info : CarFullInfo,
        get_car_info (update_vin (mkDB ml mD cl cD sl sD) old_vin new_vin).1
          new_vin = some info ∧
          info.vin = new_vin ∧ info.price = (⟨fs.getD 2 []⟩ : String) ∧
          info.date_start = (⟨fs.getD 3 []⟩ : String) ∧ info.status = st)) := by
  refine ⟨?noop, ?conflict, ?success⟩
  case noop =>
    intro habs
    unfold update_vin mkDB
    simp only [load_index_save_index cD hcD, dGet?_insSort pairLeB cD hcD.1, habs]
  case conflict =>
    intro hget hmem
    unfold update_vin mkDB
    simp only [load_index_save_index cD hcD, dGet?_insSort pairLeB cD hcD.1, hget,
      dMem_insSort2 pairLeB cD new_vin, hmem]
    rfl
  case success =>
    intro hget hnew hknew hn hline hrec hrec2 hfit2 h5 hstat hmget hmln hmline hmrec hm3
    have hshape := update_vin_success ml cl sl mD cD sD old_vin new_vin fs n hcD hcw
      hget hnew hn hline hrec hfit2
    have hne : old_vin ≠ new_vin := by
      intro e
      have hm : dMem cD old_vin = true :=
        (dMem_eq_true_iff cD old_vin).mpr
          ⟨(old_vin, n), mem_of_dGet?_eq_some hget, rfl⟩
      rw [e, hnew] at hm
      exact absurd hm (by simp)
    have hd' : wfDict (dInsert (dErase (insSort pairLeB cD) old_vin) new_vin n) :=
      wfDict_dInsert n (wfDict_dErase _ old_vin (wfDict_insSort cD hcD)) hknew
    have hcw' : WfLines
        (cl.set n (ljustPad (joinSemi (fs.set 0 new_vin.data)) LINE_LENGTH)) := by
      intro l hl
      rcases List.mem_or_eq_of_mem_set hl with hl | rfl
      · exact hcw l hl
      · exact stored_line_wf _ hrec2.2.1 hfit2
    refine ⟨hshape, ?_, ?_⟩
    · rw [hshape]
      apply get_car_info_absent _ _ _ _ _ _ _ hd'
      rw [dGet?_dInsert_ne _ _ _ _ hne]
      exact dGet?_dErase_self _ _
        (nodupKeys_of_perm (insSort_perm pairLeB cD).symm hcD.1)
    · rw [hshape]
      have h0 : (0 : Nat) < fs.length := by omega
      have hmain := get_car_info_success ml
        (cl.set n (ljustPad (joinSemi (fs.set 0 new_vin.data)) LINE_LENGTH)) sl mD
        (dInsert (dErase (insSort pairLeB cD) old_vin) new_vin n) sD new_vin
        (fs.set 0 new_vin.data) mfs n mln hmD hd' hcw' hmw
        (dGet?_dInsert_self _ _ _)
        (by simpa using hn)
        (getD_set_self cl n _ [] hn)
        hrec2 (by simpa using h5) st
        (by rw [getD_set_ne fs 0 4 _ _ (by omega)]; exact hstat)
        (by rw [getD_set_ne fs 0 1 _ _ (by omega)]; exact hmget)
        hmln hmline hmrec hm3
      refine ⟨_, hmain, ?_, ?_, ?_, rfl⟩
      · show (⟨(fs.set 0 new_vin.data).getD 0 []⟩ : String) = new_vin
        rw [getD_set_self fs 0 _ [] h0]
      · show (⟨(fs.set 0 new_vin.data).getD 2 []⟩ : String) = (⟨fs.getD 2 []⟩ : String)
        rw [getD_set_ne fs 0 2 _ _ (by omega)]
      · show (⟨(fs.set 0 new_vin.data).getD 3 []⟩ : String) = (⟨fs.getD 3 []⟩ : String)
        rw [getD_set_ne fs 0 3 _ _ (by omega)]

/-- Witness for the amended C5 at a concrete state. -/
theorem C5_update_vin_rename_witness :
    wfKey "V2" ∧
      (get_car_info
          (update_vin
            (mkDB [modelLine ⟨1, "Model3", "Tesla"⟩] [("1", 0)]
              [carLine ⟨"V1", 1, "30000", "2024-01-01", CarStatus.available⟩]
              [("V1", 0)] [] []) "V1" "V2").1 "V1" = none ∧
        ∃ info : CarFullInfo,
          get_car_info
              (update_vin
                (mkDB [modelLine ⟨1, "Model3", "Tesla"⟩] [("1", 0)]
                  [carLine ⟨"V1", 1, "30000", "2024-01-01", CarStatus.available⟩]
                  [("V1", 0)] [] []) "V1" "V2").1 "V2" = some info ∧
            info.vin = "V2" ∧
            info.price =
              (⟨(carFields ⟨"V1", 1, "30000", "2024-01-01", CarStatus.available⟩).getD
                2 []⟩ : String) ∧
            info.date_start =
              (⟨(carFields ⟨"V1", 1, "30000", "2024-01-01", CarStatus.available⟩).getD
                3 []⟩ : String) ∧
            info.status = CarStatus.available) :=
  ⟨by decide,
    ((C5_update_vin_rename [modelLine ⟨1, "Model3", "Tesla"⟩]
      [carLine ⟨"V1", 1, "30000", "2024-01-01", CarStatus.available⟩] []
      [("1", 0)] [("V1", 0)] [] "V1" "V2"
      (carFields ⟨"V1", 1, "30000", "2024-01-01", CarStatus.available⟩)
      (modelFields ⟨1, "Model3", "Tesla"⟩) 0 0 CarStatus.available
      (by decide) (by decide) (by decide) (by decide)).2.2
      (by decide) (by decide) (by decide) (by decide) (by decide) (by decide)
      (by decide) (by decide) (by decide) (by decide) (by decide) (by decide)
      (by decide) (by decide) (by decide)).2⟩

/-! ## Lemmas for `revert_sale` -/

theorem getD_map_lt {α β : Type} (f : α → β) (l : List α) (j : Nat) (d : α)
    (db : β) (hj : j < l.length) : (l.map f).getD j db = f (l.getD j d) := by
  induction l generalizing j with
  | nil => simp at hj
  | cons x t ih =>
    rcases j with _ | j'
    · rfl
    · simpa using ih j' (by simpa using hj)

theorem eraseIdx_map {α β : Type} (f : α → β) (l : List α) (k : Nat) :
    (l.map f).eraseIdx k = (l.eraseIdx k).map f := by
  induction l generalizing k with
  | nil => rfl
  | cons x t ih =>
    rcases k with _ | k'
    · rfl
    · simpa using ih k'

theorem getD_eraseIdx_lt {α : Type} (l : List α) (k j : Nat) (d : α) (h : j < k) :
    (l.eraseIdx k).getD j d = l.getD j d := by
  induction l generalizing k j with
  | nil => rfl
  | cons x t ih =>
    rcases k with _ | k'
    · omega
    · rcases j with _ | j'
      · rfl
      · simpa using ih k' j' (by omega)

theorem getD_eraseIdx_ge {α : Type} (l : List α) (k j : Nat) (d : α) (h : k ≤ j) :
    (l.eraseIdx k).getD j d = l.getD (j + 1) d := by
  induction l generalizing k j with
  | nil => rfl
  | cons x t ih =>
    rcases k with _ | k'
    · rfl
    · rcases j with _ | j'
      · omega
      · simpa using ih k' j' (by omega)

theorem mem_enumFrom_getD {α : Type} (l : List α) (d : α) :
    ∀ (i j : Nat), j < l.length → (i + j, l.getD j d) ∈ l.enumFrom i := by
  induction l with
  | nil => intro i j hj; simp at hj
  | cons x t ih =>
    intro i j hj
    rcases j with _ | j'
    · simp
    · have := ih (i + 1) j' (by simpa using hj)
      rw [show i + (j' + 1) = i + 1 + j' by omega]
      simp only [List.enumFrom_cons, List.getD_cons_succ]
      exact List.mem_cons_of_mem _ this

theorem rebuild_fold_eq (ls : List (List Char)) :
    ∀ (i : Nat) (acc : List (String × Nat)),
      (∀ l ∈ ls, stripL l ≠ []) →
      (∀ l ∈ ls,
        dMem acc (⟨(splitSemi (stripL l)).getD 0 []⟩ : String) = false) →
      List.Pairwise (fun a b => a ≠ b)
        (ls.map (fun l => (splitSemi (stripL l)).getD 0 [])) →
      (ls.enumFrom i).foldl rebuildStep acc =
        acc ++ (ls.enumFrom i).map
          (fun p => ((⟨(splitSemi (stripL p.2)).getD 0 []⟩ : String), p.1)) := by
  induction ls with
  | nil => intro i acc _ _ _; simp
  | cons l t ih =>
    intro i acc hnb hfresh hnd
    rw [List.map_cons, List.pairwise_cons] at hnd
    simp only [List.enumFrom_cons, List.foldl_cons, List.map_cons]
    have hstep : rebuildStep acc (i, l) =
        acc ++ [((⟨(splitSemi (stripL l)).getD 0 []⟩ : String), i)] := by
      unfold rebuildStep
      rw [if_neg (by simpa using hnb l (by simp))]
      exact dInsert_of_not_mem i (hfresh l (by simp))
    rw [hstep]
    rw [ih (i + 1) _ (fun x hx => hnb x (by simp [hx])) ?fresh
      hnd.2]
    · simp
    case fresh =>
      intro x hx
      rw [dMem_eq_false_iff]
      intro p hp
      rcases List.mem_append.mp hp with hp | hp
      · exact (dMem_eq_false_iff _ _).mp (hfresh x (by simp [hx])) p hp
      · have hpe : p = ((⟨(splitSemi (stripL l)).getD 0 []⟩ : String), i) := by
          simpa using hp
        rw [hpe]
        intro he
        have hkey : (splitSemi (stripL l)).getD 0 [] =
            (splitSemi (stripL x)).getD 0 [] := by
          have := congrArg String.data he
          simpa using this
        exact hnd.1 _ (List.mem_map_of_mem _ hx) hkey

theorem rebuild_sales_index_get (ls : List (List Char))
    (hnb : ∀ l ∈ ls, stripL l ≠ [])
    (hnd : List.Pairwise (fun a b => a ≠ b)
      (ls.map (fun l => (splitSemi (stripL l)).getD 0 [])))
    (j : Nat) (hj : j < ls.length) :
    dGet? (rebuild_sales_index ls)
      (⟨(splitSemi (stripL (ls.getD j []))).getD 0 []⟩ : String) = some j := by
  unfold rebuild_sales_index
  rw [show ls.enum = ls.enumFrom 0 from rfl]
  rw [rebuild_fold_eq ls 0 [] hnb (by simp [dMem]) hnd]
  simp only [List.nil_append]
  apply dGet?_eq_some_of_mem
  · rw [NodupKeys, List.pairwise_map]
    have h2 : List.Pairwise
        (fun a b => (splitSemi (stripL a)).getD 0 [] ≠ (splitSemi (stripL b)).getD 0 [])
        ls := List.pairwise_map.mp hnd
    rw [← List.enumFrom_map_snd 0 ls, List.pairwise_map] at h2
    exact h2.imp (fun hne e => hne (congrArg String.data e))
  · have hmem := mem_enumFrom_getD ls [] 0 j hj
    have := List.mem_map_of_mem
      (fun p : Nat × List Char =>
        ((⟨(splitSemi (stripL p.2)).getD 0 []⟩ : String), p.1)) hmem
    simpa using this

/-- The success path of `revert_sale`: the indexed sale line is physically
removed, the sales index rebuilt from the renumbered surviving lines, and
the referenced car's status field overwritten with `available` in place. -/
theorem revert_sale_success (ml cl sl : List (List Char))
    (mD cD sD : List (String × Nat)) (sn : String) (gs fs : List (List Char))
    (k cn : Nat) (hsD : wfDict sD) (hcD : wfDict cD) (hcw : WfLines cl)
    (hsw : ∀ l ∈ sl, '\n' ∉ l) (hget : dGet? sD sn = some k) (hk : k < sl.length)
    (hkline : sl.getD k [] = ljustPad (joinSemi gs) LINE_LENGTH)
    (hgrec : wfRecord gs)
    (hcget : dGet? cD (⟨gs.getD 1 []⟩ : String) = some cn) (hcn : cn < cl.length)
    (hcline : cl.getD cn [] = ljustPad (joinSemi fs) LINE_LENGTH)
    (hcrec : wfRecord fs) (h5 : 5 ≤ fs.length)
    (hfit2 :
      (joinSemi (fs.set 4 CarStatus.available.value.data)).length ≤ LINE_LENGTH) :
    revert_sale (mkDB ml mD cl cD sl sD) sn =
      (mkDB ml mD
        (cl.set cn
          (ljustPad (joinSemi (fs.set 4 CarStatus.available.value.data)) LINE_LENGTH))
        cD (sl.eraseIdx k)
        (rebuild_sales_index ((sl.eraseIdx k).map (fun l => l ++ ['\n']))), none) := by
  unfold revert_sale mkDB
  simp only [load_index_save_index sD hsD, dGet?_insSort pairLeB sD hsD.1, hget]
  rw [pyReadlines_flattenL sl hsw]
  rw [getD_map_lt _ sl k [] _ hk, hkline, stored_line_roundtrip gs hgrec]
  rw [eraseIdx_map]
  simp only [load_index_save_index cD hcD, dGet?_insSort pairLeB cD hcD.1, hcget]
  rw [readlineAt_flattenL cl cn hcw hcn, hcline, stored_line_roundtrip fs hcrec]
  rw [if_neg (by omega)]
  rw [splice_flattenL cl cn _ (fun l hl => (hcw l hl).1) hcn (ljustPad_length _ _ hfit2)]
  show (_, (none : Option Err)) = _
  refine congrArg (fun x => (x, (none : Option Err))) ?_
  show DB.mk _ _ _ _ ((List.map (fun l => l ++ ['\n']) (sl.eraseIdx k)).flatten) _ = _
  rfl

/-- Claim C4: `revert_sale(sales_number)` fails with `NotFound` when the
sales_number is absent; otherwise it physically removes the indexed sale
line from the sales store, renumbers the surviving lines contiguously from
zero with the sales index rebuilt to match (each surviving line's key maps
to its new position), and flips the referenced car's status back to
`available`, so that `get_car_info` of that vin then reports status
`available` and no surviving sale line carries the reverted sales_number —
hence the removed sale no longer contributes to `top_models_by_sales`,
which reads only these lines. -/
theorem C4_revert_sale (ml cl sl : List (List Char))
    (mD cD sD : List (String × Nat)) (sn : String) (gs fs mfs : List (List Char))
    (k cn mln : Nat) (hmD : wfDict mD) (hsD : wfDict sD) (hcD : wfDict cD)
    (hcw : WfLines cl) (hmw : WfLines ml) (hsw : ∀ l ∈ sl, '\n' ∉ l) :
    (dGet? sD sn = none →
      revert_sale (mkDB ml mD cl cD sl sD) sn =
        (mkDB ml mD cl cD sl sD, some Err.notFound)) ∧
    (dGet? sD sn = some k → k < sl.length →
      sl.getD k [] = ljustPad (joinSemi gs) LINE_LENGTH → wfRecord gs →
      dGet? cD (⟨gs.getD 1 []⟩ : String) = some cn → cn < cl.length →
      cl.getD cn [] = ljustPad (joinSemi fs) LINE_LENGTH → wfRecord fs →
      5 ≤ fs.length → wfRecord (fs.set 4 CarStatus.available.value.data) →
      (joinSemi (fs.set 4 CarStatus.available.value.data)).length ≤ LINE_LENGTH →
      dGet? mD (⟨intToChars (parseIntChars (fs.getD 1 []))⟩ : String) = some mln →
      mln < ml.length → ml.getD mln [] = ljustPad (joinSemi mfs) LINE_LENGTH →
      wfRecord mfs → 3 ≤ mfs.length →
      (∀ j, j < sl.length → j ≠ k →
        (splitSemi (stripL (sl.getD j [] ++ ['\n']))).getD 0 [] ≠ sn.data) →
      List.Pairwise (fun a b => a ≠ b)
        (sl.map (fun l => (splitSemi (stripL (l ++ ['\n']))).getD 0 [])) →
      (∀ l ∈ sl, stripL (l ++ ['\n']) ≠ []) →
      revert_sale (mkDB ml mD cl cD sl sD) sn =
          (mkDB ml mD
            (cl.set cn
              (ljustPad (joinSemi (fs.set 4 CarStatus.available.value.data))
                LINE_LENGTH))
            cD (sl.eraseIdx k)
            (rebuild_sales_index ((sl.eraseIdx k).map (fun l => l ++ ['\n']))),
            none) ∧
        (∃ info : CarFullInfo,
          get_car_info (revert_sale (mkDB ml mD cl cD sl sD) sn).1
              (⟨gs.getD 1 []⟩ : String) = some info ∧
            info.status = CarStatus.available) ∧
        (∀ j, j < (sl.eraseIdx k).length →
          (splitSemi (stripL ((sl.eraseIdx k).getD j [] ++ ['\n']))).getD 0 [] ≠
            sn.data) ∧
        (∀ j, j < (sl.eraseIdx k).length →
          dGet?
              (rebuild_sales_index ((sl.eraseIdx k).map (fun l => l ++ ['\n'])))
              (⟨(splitSemi
                (stripL ((sl.eraseIdx k).getD j [] ++ ['\n']))).getD 0 []⟩ :
                String) = some j)) := by
  constructor
  · intro habs
    unfold revert_sale mkDB
    simp only [load_index_save_index sD hsD, dGet?_insSort pairLeB sD hsD.1, habs]
  · intro hget hk hkline hgrec hcget hcn hcline hcrec h5 hrec2 hfit2 hmget hmln
      hmline hmrec hm3 huniq hdist hnb
    have hshape := revert_sale_success ml cl sl mD cD sD sn gs fs k cn hsD hcD hcw
      hsw hget hk hkline hgrec hcget hcn hcline hcrec h5 hfit2
    have hlen' : (sl.eraseIdx k).length = sl.length - 1 := by
      rw [List.length_eraseIdx]
      simp [hk]
    refine ⟨hshape, ?_, ?_, ?_⟩
    · rw [hshape]
      have hcw' : WfLines
          (cl.set cn
            (ljustPad (joinSemi (fs.set 4 CarStatus.available.value.data))
              LINE_LENGTH)) := by
        intro l hl
        rcases List.mem_or_eq_of_mem_set hl with hl | rfl
        · exact hcw l hl
        · exact stored_line_wf _ hrec2.2.1 hfit2
      have h4 : (4 : Nat) < fs.length := by omega
      have hmain := get_car_info_success ml
        (cl.set cn
          (ljustPad (joinSemi (fs.set 4 CarStatus.available.value.data)) LINE_LENGTH))
        (sl.eraseIdx k) mD cD
        (rebuild_sales_index ((sl.eraseIdx k).map (fun l => l ++ ['\n'])))
        (⟨gs.getD 1 []⟩ : String) (fs.set 4 CarStatus.available.value.data) mfs cn mln
        hmD hcD hcw' hmw hcget (by simpa using hcn)
        (getD_set_self cl cn _ [] hcn) hrec2 (by simpa using h5)
        CarStatus.available
        (by
          rw [getD_set_self fs 4 _ [] h4]
          exact parseStatus_value CarStatus.available)
        (by rw [getD_set_ne fs 4 1 _ _ (by omega)]; exact hmget)
        hmln hmline hmrec hm3
      exact ⟨_, hmain, rfl⟩
    · intro j hj
      rw [hlen'] at hj
      by_cases hjk : j < k
      · rw [getD_eraseIdx_lt sl k j [] hjk]
        exact huniq j (by omega) (by omega)
      · rw [getD_eraseIdx_ge sl k j [] (by omega)]
        exact huniq (j + 1) (by omega) (by omega)
    · intro j hj
      have hres := rebuild_sales_index_get ((sl.eraseIdx k).map (fun l => l ++ ['\n']))
        (by
          intro l hl
          obtain ⟨x, hx, rfl⟩ := List.mem_map.mp hl
          exact hnb x ((List.eraseIdx_sublist sl k).subset hx))
        (by
          rw [List.map_map]
          exact List.Pairwise.sublist
            (List.Sublist.map _ (List.eraseIdx_sublist sl k)) hdist)
        j (by simpa using hj)
      rw [getD_map_lt _ _ j [] _ hj] at hres
      exact hres

/-- Witness for C4: reverting the only sale of a sold car makes
`get_car_info` report the car as available again. -/
theorem C4_revert_sale_witness :
    dGet? [(("S1" : String), 0)] "S1" = some 0 ∧
      ∃ info : CarFullInfo,
        get_car_info
            (revert_sale
              (mkDB [modelLine ⟨1, "Model3", "Tesla"⟩] [("1", 0)]
                [carLine ⟨"V1", 1, "30000", "2024-01-01", CarStatus.sold⟩]
                [("V1", 0)] [saleLine ⟨"S1", "V1", "28000", "2024-02-01"⟩]
                [("S1", 0)]) "S1").1 "V1" = some info ∧
          info.status = CarStatus.available :=
  ⟨by decide,
    ((C4_revert_sale [modelLine ⟨1, "Model3", "Tesla"⟩]
      [carLine ⟨"V1", 1, "30000", "2024-01-01", CarStatus.sold⟩]
      [saleLine ⟨"S1", "V1", "28000", "2024-02-01"⟩] [("1", 0)] [("V1", 0)]
      [("S1", 0)] "S1"
      ["S1".data, "V1".data, "28000".data, "2024-02-01".data]
      (carFields ⟨"V1", 1, "30000", "2024-01-01", CarStatus.sold⟩)
      (modelFields ⟨1, "Model3", "Tesla"⟩) 0 0 0 (by decide) (by decide) (by decide)
      (by decide) (by decide) (by decide)).2 (by decide) (by decide) (by decide)
      (by decide) (by decide) (by decide) (by decide) (by decide) (by decide)
      (by decide) (by decide) (by decide) (by decide) (by decide) (by decide)
      (by decide)
      (by
        intro j hj hne
        simp at hj
        omega)
      (by simp) (by decide)).2.1⟩

/-! ## Lemmas for `top_models_by_sales` -/

theorem topKeyLt_trans (mp : List (Int × List Char)) (a b c : Int × Nat)
    (h1 : topKeyLt mp a b = true) (h2 : topKeyLt mp b c = true) :
    topKeyLt mp a c = true := by
  simp only [topKeyLt, Bool.or_eq_true, Bool.and_eq_true, decide_eq_true_eq]
    at h1 h2 ⊢
  rcases h1 with h1 | ⟨he1, hv1⟩
  · rcases h2 with h2 | ⟨he2, hv2⟩
    · exact Or.inl (lt_trans h1 h2)
    · exact Or.inl (he2 ▸ h1)
  · rcases h2 with h2 | ⟨he2, hv2⟩
    · exact Or.inl (he1 ▸ h2)
    · exact Or.inr ⟨he1.trans he2, lt_trans hv1 hv2⟩

theorem topKeyLt_irrefl (mp : List (Int × List Char)) (a : Int × Nat) :
    topKeyLt mp a a = false := by
  simp [topKeyLt]

theorem topKeyLe_total (mp : List (Int × List Char)) (a b : Int × Nat) :
    (!topKeyLt mp a b) || (!topKeyLt mp b a) := by
  by_cases h : topKeyLt mp a b = true
  · have hba : topKeyLt mp b a = false := by
      by_contra hb
      have hb' : topKeyLt mp b a = true := by
        revert hb
        cases topKeyLt mp b a <;> simp
      have := topKeyLt_trans mp a b a h hb'
      rw [topKeyLt_irrefl] at this
      exact absurd this (by simp)
    simp [hba]
  · simp [h]

theorem topKeyLe_trans (mp : List (Int × List Char)) (a b c : Int × Nat)
    (h1 : (!topKeyLt mp a b) = true) (h2 : (!topKeyLt mp b c) = true) :
    (!topKeyLt mp a c) = true := by
  simp only [Bool.not_eq_true'] at h1 h2 ⊢
  by_contra hb
  have hac : topKeyLt mp a c = true := by
    revert hb
    cases topKeyLt mp a c <;> simp
  simp only [topKeyLt, Bool.or_eq_true, Bool.and_eq_true, decide_eq_true_eq] at hac
  have hab : ¬ (topKeyLt mp a b = true) := by simp [h1]
  have hbc : ¬ (topKeyLt mp b c = true) := by simp [h2]
  simp only [topKeyLt, Bool.or_eq_true, Bool.and_eq_true, decide_eq_true_eq]
    at hab hbc
  push_neg at hab hbc
  obtain ⟨hab1, hab2⟩ := hab
  obtain ⟨hbc1, hbc2⟩ := hbc
  rcases hac with hac | ⟨hace, hacv⟩
  · omega
  · have hv1 := hab2 (by omega)
    have hv2 := hbc2 (by omega)
    exact absurd hacv (not_lt.mpr (hv2.trans hv1))

theorem desc_of_not_topKeyLt (mp : List (Int × List Char)) (a b : Int × Nat)
    (h : topKeyLt mp a b = false) :
    b.2 < a.2 ∨ (b.2 = a.2 ∧
      decVal (dGetD mp b.1 ['0']) ≤ decVal (dGetD mp a.1 ['0'])) := by
  simp only [topKeyLt, Bool.or_eq_false_iff, Bool.and_eq_false_iff,
    decide_eq_false_iff_not] at h
  rcases Nat.lt_trichotomy a.2 b.2 with hc | hc | hc
  · exact absurd hc h.1
  · rcases h.2 with h2 | h2
    · exact absurd hc h2
    · exact Or.inr ⟨hc.symm, le_of_not_lt h2⟩
  · exact Or.inl hc


theorem pairwise_counts_filterMap (mIdx : List (String × Nat)) (ml : List Char)
    (l : List (Int × Nat)) (hl : List.Pairwise (fun a b => b.2 ≤ a.2) l) :
    List.Pairwise (fun x y : ModelSaleStats => y.sales_number ≤ x.sales_number)
      (l.filterMap
        (fun item => (
          match dGet? mIdx (⟨intToChars item.1⟩ : String) with
          | none => none
          | some line_num =>
            let model_line := readlineAt ml (line_num * (LINE_LENGTH + 1))
            let fields := splitSemi (stripL model_line)
            if fields.length < 3 then none
            else
              some
                { car_model_name := (⟨fields.getD 1 []⟩ : String),
                  brand := (⟨fields.getD 2 []⟩ : String),
                  sales_number := item.2 } : Option ModelSaleStats))) := by
  rw [List.pairwise_filterMap]
  refine hl.imp ?_
  intro a b hab s hs s' hs'
  have hcount : ∀ (item : Int × Nat) (t : ModelSaleStats),
      (match dGet? mIdx (⟨intToChars item.1⟩ : String) with
        | none => none
        | some line_num =>
          let model_line := readlineAt ml (line_num * (LINE_LENGTH + 1))
          let fields := splitSemi (stripL model_line)
          if fields.length < 3 then none
          else
            some
              { car_model_name := (⟨fields.getD 1 []⟩ : String),
                brand := (⟨fields.getD 2 []⟩ : String),
                sales_number := item.2 }) = some t →
      t.sales_number = item.2 := by
    intro item t ht
    rcases h : dGet? mIdx (⟨intToChars item.1⟩ : String) with _ | ln
    · rw [h] at ht
      simp at ht
    · rw [h] at ht
      by_cases hlen :
          (splitSemi (stripL (readlineAt ml (ln * (LINE_LENGTH + 1))))).length < 3
      · simp only [if_pos hlen] at ht
        simp at ht
      · simp only [if_neg hlen] at ht
        have := (Option.some.injEq _ _).mp ht
        rw [← this]
  rw [Option.mem_def] at hs hs'
  rw [hcount a s hs, hcount b s' hs']
  exact hab

/-- Claim C7: `top_models_by_sales` sorts the per-model statistics by sales
count descending, breaking count ties by the higher tracked maximum price
first (so of two models with equal sales counts, the one with the higher
max price is ranked earlier), and returns at most the top three entries,
each enriched with model name and brand; in particular the returned sales
counts are non-increasing. -/
theorem C7_top_models_by_sales_sorted (db : DB) :
    List.Pairwise
      (fun a b : Int × Nat =>
        b.2 < a.2 ∨ (b.2 = a.2 ∧
          decVal (dGetD (salesStatsOf db).2 b.1 ['0']) ≤
            decVal (dGetD (salesStatsOf db).2 a.1 ['0'])))
      (sortedModelsOf db) ∧
    (top_models_by_sales db).length ≤ 3 ∧
    List.Pairwise (fun x y : ModelSaleStats => y.sales_number ≤ x.sales_number)
      (top_models_by_sales db) := by
  have hp := @pairwise_insSort (Int × Nat)
    (fun a b => !topKeyLt (salesStatsOf db).2 a b)
    (fun a b => topKeyLe_total (salesStatsOf db).2 a b)
    (fun a b c => topKeyLe_trans (salesStatsOf db).2 a b c)
    ((salesStatsOf db).1)
  have hdesc : List.Pairwise
      (fun a b : Int × Nat =>
        b.2 < a.2 ∨ (b.2 = a.2 ∧
          decVal (dGetD (salesStatsOf db).2 b.1 ['0']) ≤
            decVal (dGetD (salesStatsOf db).2 a.1 ['0'])))
      (sortedModelsOf db) := by
    refine (hp.imp ?_)
    intro a b hab
    apply desc_of_not_topKeyLt
    simpa using hab
  refine ⟨hdesc, ?_, ?_⟩
  · unfold top_models_by_sales
    exact le_trans (List.length_filterMap_le _ _) (List.length_take_le _ _)
  · have htake : List.Pairwise (fun a b : Int × Nat => b.2 ≤ a.2)
        ((sortedModelsOf db).take 3) := by
      refine (List.Pairwise.sublist (List.take_sublist 3 _) hdesc).imp ?_
      intro a b hab
      rcases hab with h | ⟨h, -⟩
      · exact le_of_lt h
      · exact le_of_eq h
    exact pairwise_counts_filterMap (load_index db.models_index) db.models
      ((sortedModelsOf db).take 3) htake
